import Mathlib

/-!
# Verification of the Honeypot API decision core

A shallow embedding of the repository's decision engine:

* `intelligence_extractor.py` — regex extraction of UPI ids, phone numbers,
  bank accounts, URLs and suspicious keywords;
* `scam_detector.py` — the weighted keyword/pattern classifier;
* `session_manager.py` — the per-session state store and its report policies;
* `main.py` — the callback-trigger policy `should_trigger_callback`;
* `config.py` — the default settings.

Python's `re` module (the subset of constructs these patterns use: literal
characters, character classes, greedy counted repetition of a class,
alternation, the empty-width word-boundary assertion `\b`, case-insensitive
matching) is embedded as the `RE` type below together with an executable
backtracking matcher `mrun` in continuation-passing style.  The matcher is
related to a declarative match relation `Rel` by soundness and completeness
theorems, which drive the universally quantified claims.  Character classes
are interpreted over their ASCII intent (`\d` = ASCII digits, `\w` = ASCII
alphanumerics plus underscore), matching the patterns' use on ASCII text.
-/

/-- ASCII word character, the `\w` class used by `\b` (`[a-zA-Z0-9_]`). -/
def isWordChar (c : Char) : Bool := c.isAlphanum || c == '_'

/-- Wordness of an optional character; out-of-string counts as non-word. -/
def wordOpt : Option Char → Bool
  | none => false
  | some c => isWordChar c

/-- `\b` holds between two (optional) characters iff exactly one side is a
word character. -/
def isBoundary (l r : Option Char) : Bool := wordOpt l != wordOpt r

/-- Regular-expression abstract syntax for the subset of Python `re` used by
the repository's patterns.  Every quantifier in those patterns applies to a
single-character class, so repetition is over a class, which keeps the greedy
backtracking matcher structurally recursive. -/
inductive RE : Type where
  /-- matches the empty string -/
  | eps : RE
  /-- a single character satisfying the class predicate -/
  | cls : (Char → Bool) → RE
  /-- concatenation -/
  | seq : RE → RE → RE
  /-- alternation, left branch preferred (Python tries alternatives
  left-to-right) -/
  | alt : RE → RE → RE
  /-- greedy `{lo,hi}` repetition of a character class; `hi = none` means
  unbounded (`*`, `+`, `{lo,}`) -/
  | rep : (Char → Bool) → Nat → Option Nat → RE
  /-- the word-boundary assertion `\b` -/
  | wb : RE

/-- Length of the maximal prefix of `s` whose characters satisfy `f`. -/
def maxRun (f : Char → Bool) : List Char → Nat
  | [] => 0
  | c :: s => if f c then maxRun f s + 1 else 0

/-- Move `n` characters from the remaining input onto the reversed left
context. -/
def shift : Nat → List Char → List Char → List Char × List Char
  | 0, rev, s => (rev, s)
  | _ + 1, rev, [] => (rev, [])
  | n + 1, rev, c :: s => shift n (c :: rev) s

/-- Number of repetitions the greedy matcher attempts first: the maximal run
capped by the upper bound, if any. -/
def capOf (f : Char → Bool) (hi : Option Nat) (s : List Char) : Nat :=
  match hi with
  | none => maxRun f s
  | some h => min (maxRun f s) h

/-- Backtracking driver for greedy repetition: try `j` repetitions, then
`j - 1`, …, down to `lo`.  `rev` is the reversed left context, `s` the
remaining input, `k` the continuation. -/
def tryCounts {α : Type} (lo : Nat) (rev s : List Char)
    (k : List Char → List Char → Option α) : Nat → Option α
  | 0 => if lo = 0 then k rev s else none
  | j + 1 =>
    if j + 1 < lo then none
    else
      match k (shift (j + 1) rev s).1 (shift (j + 1) rev s).2 with
      | some v => some v
      | none => tryCounts lo rev s k j

/-- The backtracking matcher in continuation-passing style.  `mrun r rev s k`
attempts to match `r` at the current position (`rev` = reversed text to the
left, needed by `\b`; `s` = text to the right) and calls `k` on the state
after each candidate match, in Python's backtracking priority order; the
first `some` answer of `k` wins. -/
def mrun {α : Type} : RE → List Char → List Char → (List Char → List Char → Option α) → Option α
  | .eps, rev, s, k => k rev s
  | .cls _, _, [], _ => none
  | .cls f, rev, c :: s, k => if f c then k (c :: rev) s else none
  | .seq a b, rev, s, k => mrun a rev s fun rev1 s1 => mrun b rev1 s1 k
  | .alt a b, rev, s, k =>
    match mrun a rev s k with
    | some v => some v
    | none => mrun b rev s k
  | .rep f lo hi, rev, s, k => tryCounts lo rev s k (capOf f hi s)
  | .wb, rev, s, k => if isBoundary rev.head? s.head? then k rev s else none

/-- Match `r` exactly at the current position, returning the state (reversed
left context, rest) after the preferred match. -/
def matchHere (r : RE) (rev s : List Char) : Option (List Char × List Char) :=
  mrun r rev s fun rev1 s1 => some (rev1, s1)

/-- Python `re.search` as a Boolean: try `matchHere` at every position left
to right. -/
def msearchB (r : RE) (rev s : List Char) : Bool :=
  match matchHere r rev s with
  | some _ => true
  | none =>
    match s with
    | [] => false
    | c :: s1 => msearchB r (c :: rev) s1


/-- Declarative match relation: `MRel r rev s rev1 s1` says `r` can match some
prefix of `s` (in left context `rev`), leaving state `(rev1, s1)`. -/
inductive MRel : RE → List Char → List Char → List Char → List Char → Prop where
  | eps {rev s} : MRel .eps rev s rev s
  | cls {f : Char → Bool} {rev c s} : f c = true → MRel (.cls f) rev (c :: s) (c :: rev) s
  | seqR {a b rev s rev1 s1 rev2 s2} :
      MRel a rev s rev1 s1 → MRel b rev1 s1 rev2 s2 → MRel (.seq a b) rev s rev2 s2
  | altL {a b rev s rev1 s1} : MRel a rev s rev1 s1 → MRel (.alt a b) rev s rev1 s1
  | altR {a b rev s rev1 s1} : MRel b rev s rev1 s1 → MRel (.alt a b) rev s rev1 s1
  | rep {f : Char → Bool} {lo hi rev cs s1} :
      (∀ c ∈ cs, f c = true) → lo ≤ cs.length →
      (∀ h, hi = some h → cs.length ≤ h) →
      MRel (.rep f lo hi) rev (cs ++ s1) (cs.reverse ++ rev) s1
  | wb {rev s} : isBoundary rev.head? s.head? = true → MRel .wb rev s rev s

theorem maxRun_le_length (f : Char → Bool) : ∀ s : List Char, maxRun f s ≤ s.length := by
  intro s
  induction s with
  | nil => simp [maxRun]
  | cons c s ih =>
    simp only [maxRun, List.length_cons]
    split <;> omega

theorem shift_run (f : Char → Bool) :
    ∀ (i : Nat) (rev s : List Char), i ≤ maxRun f s →
    ∃ cs, s = cs ++ (shift i rev s).2 ∧ (shift i rev s).1 = cs.reverse ++ rev ∧
      cs.length = i ∧ ∀ c ∈ cs, f c = true := by
  intro i
  induction i with
  | zero => intro rev s _; exact ⟨[], by simp [shift]⟩
  | succ n ih =>
    intro rev s hle
    match s with
    | [] => simp [maxRun] at hle
    | c :: s' =>
      simp only [maxRun] at hle
      by_cases hf : f c = true
      · simp only [hf, if_true] at hle
        obtain ⟨cs, h1, h2, h3, h4⟩ := ih (c :: rev) s' (by omega)
        refine ⟨c :: cs, ?_, ?_, by simp [h3], ?_⟩
        · simpa [shift] using congrArg (c :: ·) h1
        · simp only [shift, h2, List.reverse_cons, List.append_assoc, List.singleton_append]
        · intro x hx
          rcases List.mem_cons.mp hx with rfl | hx
          · exact hf
          · exact h4 _ hx
      · simp [hf] at hle

theorem shift_exact : ∀ (cs : List Char) (rev s1 : List Char),
    shift cs.length rev (cs ++ s1) = (cs.reverse ++ rev, s1) := by
  intro cs
  induction cs with
  | nil => intro rev s1; simp [shift]
  | cons c cs ih =>
    intro rev s1
    simp [shift, ih]

theorem maxRun_append_ge (f : Char → Bool) :
    ∀ (cs s1 : List Char), (∀ c ∈ cs, f c = true) → cs.length ≤ maxRun f (cs ++ s1) := by
  intro cs
  induction cs with
  | nil => simp
  | cons c cs ih =>
    intro s1 h
    have hc : f c = true := h c (by simp)
    simp only [List.cons_append, maxRun, hc, if_true, List.length_cons, List.append_eq]
    have := ih s1 (fun x hx => h x (by simp [hx]))
    simp only [List.append_eq] at this
    omega

theorem tryCounts_sound {α : Type} (lo : Nat) (rev s : List Char)
    (k : List Char → List Char → Option α) :
    ∀ (j : Nat) (v : α), tryCounts lo rev s k j = some v →
    ∃ i, lo ≤ i ∧ i ≤ j ∧ k (shift i rev s).1 (shift i rev s).2 = some v := by
  intro j
  induction j with
  | zero =>
    intro v h
    simp only [tryCounts] at h
    split at h
    · exact ⟨0, by omega, by omega, by simpa [shift] using h⟩
    · exact absurd h (by simp)
  | succ n ih =>
    intro v h
    simp only [tryCounts] at h
    split at h
    · exact absurd h (by simp)
    · rename_i hlo
      split at h
      · rename_i w hw
        exact ⟨n + 1, by omega, le_refl _, by rw [hw]; injection h with h; rw [h]⟩
      · obtain ⟨i, h1, h2, h3⟩ := ih v h
        exact ⟨i, h1, by omega, h3⟩

theorem tryCounts_complete {α : Type} (lo : Nat) (rev s : List Char)
    (k : List Char → List Char → Option α) :
    ∀ (j i : Nat) (v : α), lo ≤ i → i ≤ j →
    k (shift i rev s).1 (shift i rev s).2 = some v →
    (tryCounts lo rev s k j).isSome := by
  intro j
  induction j with
  | zero =>
    intro i v h1 h2 h3
    have : i = 0 := by omega
    subst this
    simp only [tryCounts, Nat.le_zero.mp h1, if_true]
    simp only [shift] at h3
    simp [h3]
  | succ n ih =>
    intro i v h1 h2 h3
    simp only [tryCounts]
    have hnl : ¬ (n + 1 < lo) := by omega
    simp only [hnl, if_false]
    by_cases hi : i = n + 1
    · subst hi
      simp [h3]
    · split
      · simp
      · exact ih i v h1 (by omega) h3

theorem mrun_sound {α : Type} :
    ∀ (r : RE) (rev s : List Char) (k : List Char → List Char → Option α) (v : α),
    mrun r rev s k = some v → ∃ rev1 s1, MRel r rev s rev1 s1 ∧ k rev1 s1 = some v := by
  intro r
  induction r with
  | eps => exact fun rev s k v h => ⟨rev, s, .eps, h⟩
  | cls f =>
    intro rev s k v h
    match s with
    | [] => exact absurd h (by simp [mrun])
    | c :: s' =>
      simp only [mrun] at h
      split at h
      · exact ⟨c :: rev, s', .cls (by assumption), h⟩
      · exact absurd h (by simp)
  | seq a b iha ihb =>
    intro rev s k v h
    simp only [mrun] at h
    obtain ⟨rev1, s1, hra, hk⟩ := iha rev s _ v h
    obtain ⟨rev2, s2, hrb, hk2⟩ := ihb rev1 s1 k v hk
    exact ⟨rev2, s2, .seqR hra hrb, hk2⟩
  | alt a b iha ihb =>
    intro rev s k v h
    simp only [mrun] at h
    split at h
    · rename_i w hw
      injection h with h; subst h
      obtain ⟨rev1, s1, hra, hk⟩ := iha rev s k w hw
      exact ⟨rev1, s1, .altL hra, hk⟩
    · obtain ⟨rev1, s1, hrb, hk⟩ := ihb rev s k v h
      exact ⟨rev1, s1, .altR hrb, hk⟩
  | rep f lo hi =>
    intro rev s k v h
    simp only [mrun] at h
    obtain ⟨i, hlo, hcap, hk⟩ := tryCounts_sound lo rev s k _ v h
    have himax : i ≤ maxRun f s := by
      cases hi with
      | none => simpa only [capOf] using hcap
      | some hh => simp only [capOf] at hcap; omega
    obtain ⟨cs, hs, hrev, hlen, hall⟩ := shift_run f i rev s himax
    rcases e : shift i rev s with ⟨rv, rest⟩
    rw [e] at hs hrev hk
    simp only at hs hrev hk
    subst hrev
    refine ⟨cs.reverse ++ rev, rest, ?_, hk⟩
    rw [hs]
    refine MRel.rep hall (by omega) ?_
    intro hh hhe
    subst hhe
    simp only [capOf] at hcap
    omega
  | wb =>
    intro rev s k v h
    simp only [mrun] at h
    split at h
    · exact ⟨rev, s, .wb (by assumption), h⟩
    · exact absurd h (by simp)

theorem mrun_complete {α : Type} {r : RE} {rev s rev1 s1 : List Char}
    (hrel : MRel r rev s rev1 s1) :
    ∀ (k : List Char → List Char → Option α) (v : α),
    k rev1 s1 = some v → (mrun r rev s k).isSome := by
  induction hrel with
  | eps => intro k v h; simp [mrun, h]
  | cls hf => intro k v h; simp [mrun, hf, h]
  | seqR hra hrb iha ihb =>
    intro k v h
    simp only [mrun]
    have hb := ihb k v h
    obtain ⟨w, hw⟩ := Option.isSome_iff_exists.mp hb
    exact iha _ w hw
  | altL hra iha =>
    intro k v h
    simp only [mrun]
    have ha := iha k v h
    obtain ⟨w, hw⟩ := Option.isSome_iff_exists.mp ha
    simp [hw]
  | altR hrb ihb =>
    intro k v h
    simp only [mrun]
    split
    · simp
    · exact ihb k v h
  | rep hall hlo hhi =>
    intro k v h
    rename_i f lo hi rev' cs s'
    simp only [mrun]
    have h1 := maxRun_append_ge f cs s' hall
    have hcap : cs.length ≤ capOf f hi (cs ++ s') := by
      cases hi with
      | none => simpa only [capOf] using h1
      | some hh => exact le_min h1 (hhi hh rfl)
    refine tryCounts_complete lo rev' (cs ++ s') k _ cs.length v hlo hcap ?_
    rw [shift_exact]
    exact h
  | wb hb => intro k v h; simp [mrun, hb, h]

/-- Every match consumes a prefix: the state after a match is determined by
the consumed characters. -/
theorem MRel_split {r : RE} {rev s rev1 s1 : List Char} (h : MRel r rev s rev1 s1) :
    ∃ cs, s = cs ++ s1 ∧ rev1 = cs.reverse ++ rev := by
  induction h with
  | eps => exact ⟨[], by simp⟩
  | cls _ =>
    rename_i f rev2 c s2 _
    exact ⟨[c], by simp⟩
  | seqR _ _ iha ihb =>
    obtain ⟨cs1, h1, h2⟩ := iha
    obtain ⟨cs2, h3, h4⟩ := ihb
    exact ⟨cs1 ++ cs2, by simp [h1, h3, h2, h4]⟩
  | altL _ iha => exact iha
  | altR _ ihb => exact ihb
  | rep => exact ⟨_, rfl, rfl⟩
  | wb _ => exact ⟨[], by simp⟩

theorem matchHere_some {r : RE} {rev s rev1 s1 : List Char}
    (h : matchHere r rev s = some (rev1, s1)) : MRel r rev s rev1 s1 := by
  obtain ⟨rev2, s2, hrel, hk⟩ := mrun_sound r rev s _ _ h
  simp only [Option.some.injEq, Prod.mk.injEq] at hk
  obtain ⟨rfl, rfl⟩ := hk
  exact hrel

theorem matchHere_isSome {r : RE} {rev s rev1 s1 : List Char}
    (h : MRel r rev s rev1 s1) : (matchHere r rev s).isSome :=
  mrun_complete h _ (rev1, s1) rfl

theorem matchHere_suffix {r : RE} {rev s rev1 s1 : List Char}
    (h : matchHere r rev s = some (rev1, s1)) :
    ∃ cs, s = cs ++ s1 ∧ rev1 = cs.reverse ++ rev :=
  MRel_split (matchHere_some h)

theorem matchHere_length {r : RE} {rev s rev1 s1 : List Char}
    (h : matchHere r rev s = some (rev1, s1)) : s1.length ≤ s.length := by
  obtain ⟨cs, hcs, -⟩ := matchHere_suffix h
  subst hcs
  simp

/-- Appending text whose first character is a non-word character (or nothing)
preserves any match: interior `\b` checks are unchanged and an end-of-string
`\b` stays a boundary. -/
theorem MRel_extend {r : RE} {rev s rev1 s1 : List Char} (h : MRel r rev s rev1 s1)
    {t : List Char} (ht : wordOpt t.head? = false) :
    MRel r rev (s ++ t) rev1 (s1 ++ t) := by
  induction h with
  | eps => exact .eps
  | cls hf => exact .cls hf
  | seqR _ _ iha ihb => exact .seqR iha ihb
  | altL _ iha => exact .altL iha
  | altR _ ihb => exact .altR ihb
  | rep hall hlo hhi =>
    rw [List.append_assoc]
    exact .rep hall hlo hhi
  | wb hb =>
    refine .wb ?_
    rename_i rev2 s2
    match s2 with
    | [] =>
      simp only [List.nil_append, isBoundary] at hb ⊢
      rw [ht]
      simpa [wordOpt] using hb
    | c :: s3 => simpa using hb

/-- `msearchB` succeeds iff the pattern matches at some split of the input. -/
theorem msearch_iff (r : RE) :
    ∀ (s rev : List Char), msearchB r rev s = true ↔
    ∃ a b rev1 s1, s = a ++ b ∧ MRel r (a.reverse ++ rev) b rev1 s1 := by
  intro s
  induction s with
  | nil =>
    intro rev
    constructor
    · intro h
      simp only [msearchB] at h
      split at h
      · rename_i p hp
        obtain ⟨rv, s1⟩ := p
        exact ⟨[], [], rv, s1, by simp, by simpa using matchHere_some hp⟩
      · simp at h
    · rintro ⟨a, b, rev1, s1, hab, hrel⟩
      have ha : a = [] := by cases a <;> simp_all
      have hb : b = [] := by cases a <;> simp_all
      subst ha; subst hb
      simp only [List.reverse_nil, List.nil_append] at hrel
      have := matchHere_isSome hrel
      obtain ⟨p, hp⟩ := Option.isSome_iff_exists.mp this
      simp [msearchB, hp]
  | cons c s' ih =>
    intro rev
    constructor
    · intro h
      simp only [msearchB] at h
      split at h
      · rename_i p hp
        obtain ⟨rv, s1⟩ := p
        exact ⟨[], c :: s', rv, s1, by simp, by simpa using matchHere_some hp⟩
      · obtain ⟨a, b, rev1, s1, hab, hrel⟩ := (ih (c :: rev)).mp h
        refine ⟨c :: a, b, rev1, s1, by simp [hab], ?_⟩
        simpa [List.append_assoc] using hrel
    · rintro ⟨a, b, rev1, s1, hab, hrel⟩
      simp only [msearchB]
      split
      · rfl
      · rename_i hnone
        cases a with
        | nil =>
          simp only [List.nil_append] at hab
          subst hab
          simp only [List.reverse_nil, List.nil_append] at hrel
          have := matchHere_isSome hrel
          rw [hnone] at this
          simp at this
        | cons a0 a' =>
          simp only [List.cons_append, List.cons.injEq] at hab
          obtain ⟨rfl, hab⟩ := hab
          refine (ih (c :: rev)).mpr ⟨a', b, rev1, s1, hab, ?_⟩
          simpa [List.append_assoc] using hrel

/-- Searching is preserved by appending text that starts with a non-word
character (or is empty). -/
theorem msearch_extend {r : RE} {s t : List Char}
    (h : msearchB r [] s = true) (ht : wordOpt t.head? = false) :
    msearchB r [] (s ++ t) = true := by
  obtain ⟨a, b, rev1, s1, hab, hrel⟩ := (msearch_iff r s []).mp h
  refine (msearch_iff r (s ++ t) []).mpr ⟨a, b ++ t, rev1, s1 ++ t, ?_, MRel_extend hrel ht⟩
  simp [hab]

/-- Python `re.findall`: scan left to right; at each position report the
preferred match (if any) and continue after its end, advancing one character
after an empty match or a failure (matching Python's `finditer` stepping).
The `fuel` parameter (always instantiated with more than the input length)
keeps the recursion structural, so the scanner evaluates inside the kernel. -/
def findAllFuel (r : RE) : Nat → List Char → List Char → List (List Char)
  | 0, _, _ => []
  | _ + 1, rev, [] =>
    match matchHere r rev [] with
    | some _ => [[]]
    | none => []
  | fuel + 1, rev, c :: s3 =>
    match matchHere r rev (c :: s3) with
    | some (rev1, s2) =>
      if s2.length < (c :: s3).length then
        (c :: s3).take ((c :: s3).length - s2.length) :: findAllFuel r fuel rev1 s2
      else
        (c :: s3).take ((c :: s3).length - s2.length) :: findAllFuel r fuel (c :: rev) s3
    | none => findAllFuel r fuel (c :: rev) s3

theorem findAllFuel_congr (r : RE) :
    ∀ (fuel fuel2 : Nat) (rev s : List Char), s.length < fuel → s.length < fuel2 →
    findAllFuel r fuel rev s = findAllFuel r fuel2 rev s := by
  intro fuel
  induction fuel with
  | zero => intro fuel2 rev s h; omega
  | succ n ih =>
    intro fuel2 rev s h h2
    match fuel2 with
    | 0 => omega
    | m + 1 =>
      match s with
      | [] => rfl
      | c :: s3 =>
        simp only [findAllFuel]
        cases hmm : matchHere r rev (c :: s3) with
        | some p =>
          obtain ⟨rev1, s2⟩ := p
          simp only
          split
          · rename_i hlt
            rw [ih m rev1 s2 (by simp at h hlt ⊢; omega) (by simp at h2 hlt ⊢; omega)]
          · rw [ih m (c :: rev) s3 (by simp at h ⊢; omega) (by simp at h2 ⊢; omega)]
        | none =>
          exact ih m (c :: rev) s3 (by simp at h ⊢; omega) (by simp at h2 ⊢; omega)

/-- The scanner with canonical fuel: this is the form all lemmas are stated
about. -/
def findAllAux (r : RE) (rev s : List Char) : List (List Char) :=
  findAllFuel r (s.length + 1) rev s

/-- `findall` of a compiled pattern on a text, scanning from the start. -/
def findAllL (r : RE) (s : List Char) : List (List Char) := findAllAux r [] s

theorem findAllAux_nil (r : RE) (rev : List Char) :
    findAllAux r rev [] =
      match matchHere r rev [] with
      | some _ => [[]]
      | none => [] := rfl

theorem findAllAux_cons (r : RE) (rev : List Char) (c : Char) (s3 : List Char) :
    findAllAux r rev (c :: s3) =
      match matchHere r rev (c :: s3) with
      | some (rev1, s2) =>
        if s2.length < (c :: s3).length then
          (c :: s3).take ((c :: s3).length - s2.length) :: findAllAux r rev1 s2
        else
          (c :: s3).take ((c :: s3).length - s2.length) :: findAllAux r (c :: rev) s3
      | none => findAllAux r (c :: rev) s3 := by
  show findAllFuel r ((c :: s3).length + 1) rev (c :: s3) = _
  simp only [findAllFuel]
  cases hmm : matchHere r rev (c :: s3) with
  | some p =>
    obtain ⟨rev1, s2⟩ := p
    simp only
    split
    · rename_i hlt
      rw [findAllFuel_congr r ((c :: s3).length) (s2.length + 1) rev1 s2 (by omega) (by omega)]
      rfl
    · rfl
  | none => rfl

theorem findAllAux_ne_iff (r : RE) :
    ∀ (n : Nat) (s rev : List Char), s.length ≤ n →
    (findAllAux r rev s ≠ [] ↔ msearchB r rev s = true) := by
  intro n
  induction n with
  | zero =>
    intro s rev hle
    have hs : s = [] := by cases s <;> simp_all
    subst hs
    rw [findAllAux_nil, msearchB]
    cases hmm : matchHere r rev ([] : List Char) with
    | some p => simp
    | none => simp
  | succ n ih =>
    intro s rev hle
    cases s with
    | nil =>
      rw [findAllAux_nil, msearchB]
      cases hmm : matchHere r rev ([] : List Char) with
      | some p => simp
      | none => simp
    | cons c s3 =>
      rw [findAllAux_cons, msearchB]
      cases hmm : matchHere r rev (c :: s3) with
      | some p =>
        obtain ⟨rev1, s2⟩ := p
        simp only
        split
        · simp
        · simp
      | none =>
        simpa using ih s3 (c :: rev) (by simp at hle; omega)

/-- Every reported match arises from an actual match of the pattern at some
position. -/
theorem findAllAux_elem (r : RE) :
    ∀ (n : Nat) (s rev : List Char), s.length ≤ n →
    ∀ m ∈ findAllAux r rev s,
    ∃ rev0 rev1 s1, MRel r rev0 (m ++ s1) rev1 s1 := by
  intro n
  induction n with
  | zero =>
    intro s rev hle
    have hs : s = [] := by cases s <;> simp_all
    subst hs
    intro m hm
    rw [findAllAux_nil] at hm
    cases hmm : matchHere r rev ([] : List Char) with
    | some p =>
      obtain ⟨rev1, s2⟩ := p
      rw [hmm] at hm
      simp only [List.mem_singleton] at hm
      subst hm
      have hlen := matchHere_length hmm
      simp only [List.length_nil, Nat.le_zero] at hlen
      have hs2 : s2 = [] := List.length_eq_zero.mp hlen
      subst hs2
      exact ⟨rev, rev1, [], by simpa using matchHere_some hmm⟩
    | none =>
      rw [hmm] at hm
      simp at hm
  | succ n ih =>
    intro s rev hle m hm
    cases s with
    | nil =>
      rw [findAllAux_nil] at hm
      cases hmm : matchHere r rev ([] : List Char) with
      | some p =>
        obtain ⟨rev1, s2⟩ := p
        rw [hmm] at hm
        simp only [List.mem_singleton] at hm
        subst hm
        have hlen := matchHere_length hmm
        simp only [List.length_nil, Nat.le_zero] at hlen
        have hs2 : s2 = [] := List.length_eq_zero.mp hlen
        subst hs2
        exact ⟨rev, rev1, [], by simpa using matchHere_some hmm⟩
      | none =>
        rw [hmm] at hm
        simp at hm
    | cons c s3 =>
      rw [findAllAux_cons] at hm
      cases hmm : matchHere r rev (c :: s3) with
      | some p =>
        obtain ⟨rev1, s2⟩ := p
        rw [hmm] at hm
        simp only at hm
        obtain ⟨cs, hcs, hrev⟩ := matchHere_suffix hmm
        have htake : (c :: s3).take ((c :: s3).length - s2.length) = cs := by
          rw [hcs]
          simp
        by_cases hlt : s2.length < (c :: s3).length
        · rw [if_pos hlt] at hm
          rcases List.mem_cons.mp hm with rfl | hm2
          · exact ⟨rev, rev1, s2, by rw [htake, ← hcs]; exact matchHere_some hmm⟩
          · exact ih s2 rev1 (by simp at hle hlt ⊢; omega) m hm2
        · rw [if_neg hlt] at hm
          rcases List.mem_cons.mp hm with rfl | hm2
          · exact ⟨rev, rev1, s2, by rw [htake, ← hcs]; exact matchHere_some hmm⟩
          · exact ih s3 (c :: rev) (by simp at hle; omega) m hm2
      | none =>
        rw [hmm] at hm
        exact ih s3 (c :: rev) (by simp at hle; omega) m hm

theorem tryCounts_map {α β : Type} (φ : α → β) (lo : Nat) (rev s : List Char)
    (k : List Char → List Char → Option α) :
    ∀ j, tryCounts lo rev s (fun x y => (k x y).map φ) j = (tryCounts lo rev s k j).map φ := by
  intro j
  induction j with
  | zero =>
    simp only [tryCounts]
    split <;> simp
  | succ n ih =>
    simp only [tryCounts]
    split
    · simp
    · cases k (shift (n + 1) rev s).1 (shift (n + 1) rev s).2 with
      | some v => simp
      | none => simpa using ih

/-- The matcher is natural in its continuation's result. -/
theorem mrun_map {α β : Type} (φ : α → β) :
    ∀ (r : RE) (rev s : List Char) (k : List Char → List Char → Option α),
    mrun r rev s (fun x y => (k x y).map φ) = (mrun r rev s k).map φ := by
  intro r
  induction r with
  | eps => intro rev s k; rfl
  | cls f =>
    intro rev s k
    match s with
    | [] => rfl
    | c :: s' =>
      simp only [mrun]
      split <;> simp
  | seq a b iha ihb =>
    intro rev s k
    simp only [mrun]
    have heq : (fun r1 s1 => mrun b r1 s1 (fun x y => (k x y).map φ)) =
        (fun r1 s1 => (mrun b r1 s1 k).map φ) := by
      funext r1 s1
      exact ihb r1 s1 k
    rw [heq]
    exact iha rev s _
  | alt a b iha ihb =>
    intro rev s k
    simp only [mrun, iha rev s k]
    cases mrun a rev s k with
    | some v => simp
    | none => simpa using ihb rev s k
  | rep f lo hi =>
    intro rev s k
    simp only [mrun]
    exact tryCounts_map φ lo rev s k _
  | wb =>
    intro rev s k
    simp only [mrun]
    split <;> simp

/-- Whether a pattern contains a `\b` assertion. -/
def hasWB : RE → Bool
  | .eps => false
  | .cls _ => false
  | .seq a b => hasWB a || hasWB b
  | .alt a b => hasWB a || hasWB b
  | .rep _ _ _ => false
  | .wb => true

/-- Whether some character class occurring in the pattern accepts `c`
(an over-approximation of the characters the pattern can consume). -/
def acceptsChar : RE → Char → Bool
  | .eps, _ => false
  | .cls f, c => f c
  | .seq a b, c => acceptsChar a c || acceptsChar b c
  | .alt a b, c => acceptsChar a c || acceptsChar b c
  | .rep f _ _, c => f c
  | .wb, _ => false

theorem maxRun_append_stop {f : Char → Bool} {e : Char} (hfe : f e = false) :
    ∀ (b t : List Char), maxRun f (b ++ e :: t) = maxRun f b := by
  intro b t
  induction b with
  | nil => simp [maxRun, hfe]
  | cons c b' ih =>
    simp only [List.cons_append, maxRun, List.append_eq, ih]

theorem shift_append_le :
    ∀ (j : Nat) (rev b x : List Char), j ≤ b.length →
    shift j rev (b ++ x) = ((shift j rev b).1, (shift j rev b).2 ++ x) := by
  intro j
  induction j with
  | zero => intro rev b x _; simp [shift]
  | succ n ih =>
    intro rev b x hle
    match b with
    | [] => simp at hle
    | c :: b' =>
      simp only [List.cons_append, shift]
      exact ih (c :: rev) b' x (by simpa using hle)

theorem tryCounts_barrier {α : Type} (e : Char) (t : List Char)
    (lo : Nat) (rev b : List Char) (k : List Char → List Char → Option α) :
    ∀ j, j ≤ b.length →
    tryCounts lo rev (b ++ e :: t) k j =
      tryCounts lo rev b (fun rev1 b1 => k rev1 (b1 ++ e :: t)) j := by
  intro j
  induction j with
  | zero =>
    intro _
    simp only [tryCounts]
  | succ n ih =>
    intro hle
    simp only [tryCounts]
    split
    · rfl
    · rw [shift_append_le (n + 1) rev b (e :: t) hle]
      simp only
      split
      · rfl
      · exact ih (by omega)

/-- Barrier lemma: if no class of a `\b`-free pattern accepts `e`, matching
in `b ++ e :: t` can never cross the `e` barrier, so it behaves exactly as
matching in `b` alone. -/
theorem mrun_barrier {α : Type} (e : Char) (t : List Char) :
    ∀ (r : RE), hasWB r = false → acceptsChar r e = false →
    ∀ (rev b : List Char) (k : List Char → List Char → Option α),
    mrun r rev (b ++ e :: t) k = mrun r rev b (fun rev1 b1 => k rev1 (b1 ++ e :: t)) := by
  intro r
  induction r with
  | eps => intro _ _ rev b k; rfl
  | cls f =>
    intro _ hacc rev b k
    simp only [acceptsChar] at hacc
    match b with
    | [] => simp [mrun, hacc]
    | c :: b' =>
      simp only [List.cons_append, mrun, List.append_eq]
  | seq a b2 iha ihb =>
    intro hwb hacc rev b k
    simp only [hasWB, Bool.or_eq_false_iff] at hwb
    simp only [acceptsChar, Bool.or_eq_false_iff] at hacc
    simp only [mrun]
    rw [iha hwb.1 hacc.1]
    congr 1
    funext rev1 b1
    exact ihb hwb.2 hacc.2 rev1 b1 k
  | alt a b2 iha ihb =>
    intro hwb hacc rev b k
    simp only [hasWB, Bool.or_eq_false_iff] at hwb
    simp only [acceptsChar, Bool.or_eq_false_iff] at hacc
    simp only [mrun]
    rw [iha hwb.1 hacc.1, ihb hwb.2 hacc.2]
  | rep f lo hi =>
    intro _ hacc rev b k
    simp only [acceptsChar] at hacc
    simp only [mrun, capOf, maxRun_append_stop hacc]
    have hcap : ∀ h : Option Nat, (match h with
        | none => maxRun f b
        | some hh => min (maxRun f b) hh) ≤ b.length := by
      intro h
      match h with
      | none => exact maxRun_le_length f b
      | some hh => exact le_trans (min_le_left _ _) (maxRun_le_length f b)
    exact tryCounts_barrier e t lo rev b k _ (hcap hi)
  | wb => intro hwb; simp [hasWB] at hwb

theorem matchHere_barrier (e : Char) (t : List Char) {r : RE}
    (hwb : hasWB r = false) (hacc : acceptsChar r e = false)
    (rev b : List Char) :
    matchHere r rev (b ++ e :: t) =
      (matchHere r rev b).map
        (fun p : List Char × List Char => (p.1, p.2 ++ e :: t)) := by
  unfold matchHere
  rw [mrun_barrier e t r hwb hacc rev b]
  have hmap := mrun_map (fun p : List Char × List Char => (p.1, p.2 ++ e :: t)) r rev b
      (fun rev1 s1 => some (rev1, s1))
  exact hmap

/-- A lower bound on the number of characters any match of `r` consumes. -/
def minConsume : RE → Nat
  | .eps => 0
  | .cls _ => 1
  | .seq a b => minConsume a + minConsume b
  | .alt a b => min (minConsume a) (minConsume b)
  | .rep _ lo _ => lo
  | .wb => 0

theorem MRel_minConsume {r : RE} {rev s rev1 s1 : List Char} (h : MRel r rev s rev1 s1) :
    ∃ cs, s = cs ++ s1 ∧ minConsume r ≤ cs.length := by
  induction h with
  | eps => exact ⟨[], by simp [minConsume]⟩
  | cls _ =>
    rename_i f rev2 c s2 _
    exact ⟨[c], by simp [minConsume]⟩
  | seqR _ _ iha ihb =>
    obtain ⟨cs1, h1, h2⟩ := iha
    obtain ⟨cs2, h3, h4⟩ := ihb
    refine ⟨cs1 ++ cs2, by simp [h1, h3], ?_⟩
    simp only [minConsume, List.length_append]
    omega
  | altL _ iha =>
    obtain ⟨cs1, h1, h2⟩ := iha
    refine ⟨cs1, h1, ?_⟩
    simp only [minConsume]
    omega
  | altR _ ihb =>
    obtain ⟨cs1, h1, h2⟩ := ihb
    refine ⟨cs1, h1, ?_⟩
    simp only [minConsume]
    omega
  | rep _ hlo _ => exact ⟨_, rfl, by simpa [minConsume]⟩
  | wb _ => exact ⟨[], by simp [minConsume]⟩

theorem matchHere_progress {r : RE} (hmin : 1 ≤ minConsume r)
    {rev s rev1 s1 : List Char} (h : matchHere r rev s = some (rev1, s1)) :
    s1.length < s.length := by
  obtain ⟨cs, hcs, hlen⟩ := MRel_minConsume (matchHere_some h)
  subst hcs
  simp only [List.length_append]
  omega

theorem matchHere_none_nil {r : RE} (hmin : 1 ≤ minConsume r) (rev : List Char) :
    matchHere r rev [] = none := by
  cases hmm : matchHere r rev ([] : List Char) with
  | none => rfl
  | some p =>
    obtain ⟨rev1, s2⟩ := p
    have := matchHere_progress hmin hmm
    simp at this

/-- Scanning `b ++ e :: t` where no class of the (`\b`-free, nonempty-match)
pattern accepts `e` decomposes into scanning `b`, then scanning `e :: t`. -/
theorem findAllAux_barrier (r : RE) (e : Char) (t : List Char)
    (hwb : hasWB r = false) (hacc : acceptsChar r e = false)
    (hmin : 1 ≤ minConsume r) :
    ∀ (n : Nat) (b rev : List Char), b.length ≤ n →
    findAllAux r rev (b ++ e :: t) =
      findAllAux r rev b ++ findAllAux r (b.reverse ++ rev) (e :: t) := by
  intro n
  induction n with
  | zero =>
    intro b rev hle
    have hb : b = [] := by cases b <;> simp_all
    subst hb
    rw [List.nil_append, findAllAux_nil, matchHere_none_nil hmin]
    simp
  | succ n ih =>
    intro b rev hle
    cases b with
    | nil =>
      rw [List.nil_append, findAllAux_nil, matchHere_none_nil hmin]
      simp
    | cons c b' =>
      rw [List.cons_append, findAllAux_cons]
      have hmb := matchHere_barrier e t hwb hacc rev (c :: b')
      simp only [List.cons_append] at hmb
      rw [hmb]
      cases hmm : matchHere r rev (c :: b') with
      | none =>
        simp only [Option.map_none']
        rw [findAllAux_cons, hmm]
        rw [ih b' (c :: rev) (by simpa using hle)]
        simp [List.append_assoc]
      | some p =>
        obtain ⟨rev1, s2⟩ := p
        simp only [Option.map_some']
        have hprog : s2.length < (c :: b').length := matchHere_progress hmin hmm
        obtain ⟨cs, hcs, hrev⟩ := matchHere_suffix hmm
        have hlt2 : (s2 ++ e :: t).length < (c :: (b' ++ e :: t)).length := by
          simp only [List.length_append, List.length_cons] at hprog ⊢
          omega
        rw [if_pos hlt2]
        have hdiff : (c :: (b' ++ e :: t)).length - (s2 ++ e :: t).length =
            (c :: b').length - s2.length := by
          simp only [List.length_append, List.length_cons]
          omega
        have htake : (c :: (b' ++ e :: t)).take ((c :: b').length - s2.length) =
            (c :: b').take ((c :: b').length - s2.length) := by
          have hform : c :: (b' ++ e :: t) = (c :: b') ++ e :: t := rfl
          rw [hform]
          exact List.take_append_of_le_length (by omega)
        have hs2n : s2.length ≤ n := by
          simp only [List.length_cons] at hprog hle
          omega
        rw [hdiff, htake, ih s2 rev1 hs2n]
        conv_rhs => rw [findAllAux_cons]
        simp only [hmm]
        rw [if_pos hprog]
        have hrevs : s2.reverse ++ rev1 = (c :: b').reverse ++ rev := by
          rw [hrev, hcs]
          simp [List.append_assoc]
        rw [hrevs]
        simp [List.append_assoc]

/-! ## Pattern syntax helpers

Python regex literals are translated into `RE` terms.  `litCI` models a
literal character under `re.IGNORECASE` (Python folds both sides). -/

/-- Case-sensitive literal character. -/
def lit (c : Char) : RE := .cls (fun x => x == c)

/-- Case-insensitive literal character (`re.IGNORECASE`). -/
def litCI (c : Char) : RE := .cls (fun x => x.toLower == c.toLower)

/-- Concatenation of a list of patterns. -/
def catList : List RE → RE
  | [] => .eps
  | [r] => r
  | r :: rs => .seq r (catList rs)

/-- Case-sensitive literal string. -/
def csStr (s : String) : RE := catList (s.toList.map lit)

/-- Case-insensitive literal string. -/
def ciStr (s : String) : RE := catList (s.toList.map litCI)

/-- `(r)?`: greedy option, preferring the match. -/
def optRE (r : RE) : RE := .alt r .eps

/-! ## Character classes used by the repository's patterns -/

/-- `[a-zA-Z0-9._-]` (the UPI local-part class). -/
def upiLocalChar (c : Char) : Bool := c.isAlpha || c.isDigit || c == '.' || c == '_' || c == '-'

/-- Python `\s` over ASCII. -/
def pySpaceChar (c : Char) : Bool :=
  c == ' ' || c == '\t' || c == '\n' || c == '\r' || c == '\x0b' || c == '\x0c'

/-- `[\s-]` (phone separator class). -/
def sepChar (c : Char) : Bool := pySpaceChar c || c == '-'

/-- `[6-9]` (leading digit of Indian mobile numbers). -/
def d69Char (c : Char) : Bool := c == '6' || c == '7' || c == '8' || c == '9'

/-- `[A-Z0-9]` (IFSC tail class). -/
def ifscChar (c : Char) : Bool := c.isUpper || c.isDigit

/-- The negated URL-body class from the source's URL patterns. -/
def urlBodyChar (c : Char) : Bool :=
  !(pySpaceChar c || c == '<' || c == '>' || c == '"' || c == '\x7b' || c == '\x7d' ||
    c == '|' || c == '\\' || c == '^' || c == '\x60' || c == '[' || c == ']')

/-- `[a-zA-Z0-9]` (shortener path class). -/
def alnumChar (c : Char) : Bool := c.isAlpha || c.isDigit

/-- `s?` under IGNORECASE. -/
def sCI (c : Char) : Bool := c.toLower == 's'

/-- Python `.` (any character except newline). -/
def dotChar (c : Char) : Bool := !(c == '\n')

/-! ## `IntelligenceExtractor` (intelligence_extractor.py)

`UPI_PATTERNS`: `[a-zA-Z0-9._-]+@<provider>` for 19 known providers and a
generic `[a-zA-Z0-9._-]+@[a-zA-Z]{2,}` fallback, all `re.IGNORECASE`. -/

/-- `[a-zA-Z0-9._-]+@<dom>` (IGNORECASE). -/
def upiSuffixPat (dom : String) : RE :=
  .seq (.rep upiLocalChar 1 none) (.seq (lit '@') (ciStr dom))

/-- `[a-zA-Z0-9._-]+@[a-zA-Z]{2,}` (IGNORECASE). -/
def upiGenericPat : RE :=
  .seq (.rep upiLocalChar 1 none) (.seq (lit '@') (.rep Char.isAlpha 2 none))

def UPI_PATTERNS : List RE :=
  [upiSuffixPat "ybl", upiSuffixPat "paytm", upiSuffixPat "okaxis",
   upiSuffixPat "okicici", upiSuffixPat "oksbi", upiSuffixPat "okhdfcbank",
   upiSuffixPat "upi", upiSuffixPat "apl", upiSuffixPat "axl",
   upiSuffixPat "ibl", upiSuffixPat "sbi", upiSuffixPat "hdfc",
   upiSuffixPat "icici", upiSuffixPat "axis", upiSuffixPat "kotak",
   upiSuffixPat "phonepe", upiSuffixPat "gpay", upiSuffixPat "freecharge",
   upiSuffixPat "amazonpay", upiGenericPat]

/-- `\+91[\s-]?[6-9]\d{9}` -/
def phonePat1 : RE :=
  catList [lit '+', lit '9', lit '1', .rep sepChar 0 (some 1),
    .cls d69Char, .rep Char.isDigit 9 (some 9)]

/-- `91[\s-]?[6-9]\d{9}` -/
def phonePat2 : RE :=
  catList [lit '9', lit '1', .rep sepChar 0 (some 1),
    .cls d69Char, .rep Char.isDigit 9 (some 9)]

/-- `0[6-9]\d{9}` -/
def phonePat3 : RE :=
  catList [lit '0', .cls d69Char, .rep Char.isDigit 9 (some 9)]

/-- `\b[6-9]\d{9}\b` -/
def phonePat4 : RE :=
  catList [.wb, .cls d69Char, .rep Char.isDigit 9 (some 9), .wb]

def PHONE_PATTERNS : List RE := [phonePat1, phonePat2, phonePat3, phonePat4]

/-- `\b(\d{9,18})\b` (the capture group spans the whole match since `\b` is
zero-width, so `findall` returns the full match text). -/
def bankAccountPat : RE := catList [.wb, .rep Char.isDigit 9 (some 18), .wb]

/-- `\b([A-Z]{4}0[A-Z0-9]{6})\b` -/
def ifscPat : RE :=
  catList [.wb, .rep Char.isUpper 4 (some 4), lit '0', .rep ifscChar 6 (some 6), .wb]

/-- `https?://[^\s<>"{}|\^`\[\]]+` (IGNORECASE; braces/backtick written via
escapes). -/
def urlPat1 : RE := catList [ciStr "http", .rep sCI 0 (some 1), ciStr "://",
  .rep urlBodyChar 1 none]

/-- `www\.[^\s<>"{}|\^`\[\]]+` (IGNORECASE; the dot is escaped in the
source, so it is the literal dot). -/
def urlPat2 : RE := .seq (ciStr "www.") (.rep urlBodyChar 1 none)

/-- `bit\.ly/[a-zA-Z0-9]+` -/
def urlPat3 : RE := .seq (ciStr "bit.ly/") (.rep alnumChar 1 none)

/-- `tinyurl\.com/[a-zA-Z0-9]+` -/
def urlPat4 : RE := .seq (ciStr "tinyurl.com/") (.rep alnumChar 1 none)

/-- `goo\.gl/[a-zA-Z0-9]+` -/
def urlPat5 : RE := .seq (ciStr "goo.gl/") (.rep alnumChar 1 none)

/-- `t\.co/[a-zA-Z0-9]+` -/
def urlPat6 : RE := .seq (ciStr "t.co/") (.rep alnumChar 1 none)

def URL_PATTERNS : List RE := [urlPat1, urlPat2, urlPat3, urlPat4, urlPat5, urlPat6]

def SUSPICIOUS_KEYWORDS : List String :=
  ["urgent", "immediately", "now", "today", "expire", "last chance",
   "limited time", "act fast", "hurry", "quick", "asap",
   "blocked", "suspended", "deactivated", "terminated", "freeze",
   "legal action", "police", "arrest", "fine", "penalty",
   "won", "winner", "lottery", "prize", "reward", "cashback",
   "congratulations", "selected", "lucky", "claim", "free",
   "verify", "verification", "confirm", "update", "kyc",
   "otp", "password", "pin", "cvv",
   "transfer", "pay", "send money", "upi", "bank", "account",
   "click here", "click link",
   "rbi", "government", "police", "income tax", "customs",
   "bank manager", "customer care", "support team", "official"]

def SAFE_DOMAINS : List String :=
  ["google.com", "facebook.com", "youtube.com", "twitter.com",
   "linkedin.com", "instagram.com", "microsoft.com", "apple.com",
   "amazon.in", "flipkart.com", "paytm.com", "phonepe.com"]

/-- Python substring containment (`needle in hay`). -/
def containsSub (hay nd : List Char) : Bool :=
  if nd.isPrefixOf hay then true
  else
    match hay with
    | [] => false
    | _ :: h' => containsSub h' nd

/-- One iteration of the match loop in `extract_upi_ids`: keep the match
unless it ends in `".com"` or lacks `'@'`, lowercase it and dedup-append. -/
def upiStep (ids : List String) (m : List Char) : List String :=
  if !((".com".toList).isSuffixOf m) && m.contains '@' then
    let cleaned := String.mk (m.map Char.toLower)
    if ids.contains cleaned then ids else ids ++ [cleaned]
  else ids

/-- `IntelligenceExtractor.extract_upi_ids`: for each pattern, for each
`findall` match, run `upiStep`, deduplicating in first-seen order. -/
def extract_upi_ids (text : List Char) : List String :=
  UPI_PATTERNS.foldl (fun acc pat => (findAllL pat text).foldl upiStep acc) []

/-- One iteration of the match loop in `extract_phone_numbers`: strip `[\s-]`,
keep the digits, require at least 10, canonicalize to `+91` + last 10 digits,
dedup-append the canonical form. -/
def phoneStep (phones : List String) (m : List Char) : List String :=
  let cleaned := m.filter (fun c => !sepChar c)
  let digits := cleaned.filter Char.isDigit
  if 10 ≤ digits.length then
    let normalized := "+91" ++ String.mk (digits.drop (digits.length - 10))
    if phones.contains normalized then phones else phones ++ [normalized]
  else phones

/-- `IntelligenceExtractor.extract_phone_numbers`. -/
def extract_phone_numbers (text : List Char) : List String :=
  PHONE_PATTERNS.foldl (fun acc pat => (findAllL pat text).foldl phoneStep acc) []

/-- One iteration of the account loop in `extract_bank_accounts`: the source
re-checks the match length against 9–18 before dedup-appending. -/
def bankStep (acc : List String) (m : List Char) : List String :=
  if 9 ≤ m.length ∧ m.length ≤ 18 then
    if acc.contains (String.mk m) then acc else acc ++ [String.mk m]
  else acc

/-- One iteration of the IFSC loop in `extract_bank_accounts`. -/
def ifscStep (acc : List String) (m : List Char) : List String :=
  if acc.contains (String.mk m) then acc else acc ++ [String.mk m]

/-- `IntelligenceExtractor.extract_bank_accounts`: 9–18 digit runs (checked
again on the match length, as in the source) then IFSC codes, deduplicated. -/
def extract_bank_accounts (text : List Char) : List String :=
  let accounts := (findAllL bankAccountPat text).foldl bankStep []
  (findAllL ifscPat text).foldl ifscStep accounts

/-- One iteration of the match loop in `extract_urls`: drop any match
containing a safe domain as a substring (case-folded), dedup the rest. -/
def urlStep (urls : List String) (m : List Char) : List String :=
  let url := String.mk m
  let isSafe := SAFE_DOMAINS.any (fun safe => containsSub (m.map Char.toLower) safe.toList)
  if !isSafe && !urls.contains url then urls ++ [url] else urls

/-- `IntelligenceExtractor.extract_urls`. -/
def extract_urls (text : List Char) : List String :=
  URL_PATTERNS.foldl (fun acc pat => (findAllL pat text).foldl urlStep acc) []

/-- `IntelligenceExtractor.find_suspicious_keywords`: case-insensitive
substring test against the fixed vocabulary, in vocabulary order. -/
def find_suspicious_keywords (text : List Char) : List String :=
  let textLower := text.map Char.toLower
  SUSPICIOUS_KEYWORDS.foldl (fun found kw =>
    if containsSub textLower (kw.toList.map Char.toLower) then
      if found.contains kw then found else found ++ [kw]
    else found) []

/-- The five-field intelligence bundle (`ExtractedIntelligence` dataclass /
the dict returned by `extract_all`). -/
structure ExtractedIntelligence where
  bankAccounts : List String := []
  upiIds : List String := []
  phishingLinks : List String := []
  phoneNumbers : List String := []
  suspiciousKeywords : List String := []
deriving DecidableEq, Repr

/-- `IntelligenceExtractor.extract_all`. -/
def extract_all (text : List Char) : ExtractedIntelligence :=
  { bankAccounts := extract_bank_accounts text
    upiIds := extract_upi_ids text
    phishingLinks := extract_urls text
    phoneNumbers := extract_phone_numbers text
    suspiciousKeywords := find_suspicious_keywords text }

/-- `extract_all` on a Lean `String`. -/
def extractAllS (text : String) : ExtractedIntelligence := extract_all text.toList

/-! ## `ScamDetector` (scam_detector.py)

Each tactic category carries its trigger regexes (translated with
`re.IGNORECASE` semantics), an integer weight (held as a rational because the
history pass adds half-weights) and a description.  Scores and confidences
are modelled as rationals; every comparison and monotonicity claim below is
order-exact with respect to the source's floats. -/

structure ScamCategory where
  name : String
  patterns : List RE
  weight : ℚ
  description : String

/-- `\b<word>\b` with a case-insensitive literal. -/
def wbWord (s : String) : RE := catList [.wb, ciStr s, .wb]

def urgencyCat : ScamCategory :=
  { name := "urgency"
    patterns :=
      [wbWord "immediately", wbWord "urgent", wbWord "today", wbWord "now",
       wbWord "asap", wbWord "quickly",
       catList [.wb, ciStr "expir", .alt (litCI 'e') (.alt (ciStr "ing") (ciStr "ed")), .wb],
       wbWord "last chance", wbWord "limited time", wbWord "act fast", wbWord "hurry"]
    weight := 2
    description := "Urgency tactics" }

def threatCat : ScamCategory :=
  { name := "threat"
    patterns :=
      [catList [.wb, ciStr "block", optRE (ciStr "ed"), .wb],
       catList [.wb, ciStr "suspend", optRE (ciStr "ed"), .wb],
       catList [.wb, ciStr "deactivat", .alt (litCI 'e') (ciStr "ed"), .wb],
       catList [.wb, ciStr "terminate", optRE (litCI 'd'), .wb],
       catList [.wb, ciStr "freez", .alt (litCI 'e') (ciStr "ing"), .wb],
       wbWord "legal action", wbWord "police", wbWord "arrest", wbWord "fine",
       wbWord "penalty"]
    weight := 3
    description := "Threat-based manipulation" }

def sensitiveCat : ScamCategory :=
  { name := "sensitive_request"
    patterns :=
      [wbWord "otp", wbWord "pin", wbWord "password", wbWord "cvv",
       wbWord "card number", wbWord "expiry", wbWord "bank account",
       wbWord "account number",
       catList [.wb, ciStr "upi", .rep pySpaceChar 0 none,
         optRE (.alt (ciStr "id") (ciStr "pin")), .wb],
       wbWord "aadhaar", wbWord "pan",
       catList [.wb, ciStr "share", .wb, .rep dotChar 0 none, .wb,
         .alt (ciStr "details") (ciStr "info"), .wb]]
    weight := 4
    description := "Request for sensitive information" }

def lotteryCat : ScamCategory :=
  { name := "lottery"
    patterns :=
      [wbWord "won", wbWord "winner", wbWord "lottery", wbWord "prize",
       wbWord "claim", wbWord "congratulation", wbWord "lucky",
       wbWord "selected", wbWord "cash prize", wbWord "reward"]
    weight := 4
    description := "Lottery/Prize scam" }

def financialCat : ScamCategory :=
  { name := "financial_bait"
    patterns :=
      [wbWord "refund", wbWord "cashback", wbWord "reward", wbWord "free",
       wbWord "bonus", wbWord "loan approved",
       catList [.wb, ciStr "credit", .wb, .rep dotChar 0 none, .wb, ciStr "approved", .wb],
       catList [.wb, ciStr "money", .wb, .rep dotChar 0 none, .wb, ciStr "transfer", .wb]]
    weight := 3
    description := "Financial bait" }

def impersonationCat : ScamCategory :=
  { name := "impersonation"
    patterns :=
      [catList [.wb, ciStr "bank", .rep pySpaceChar 0 none,
         .alt (ciStr "manager") (ciStr "officer"), .wb],
       wbWord "rbi", wbWord "government",
       catList [.wb, ciStr "income", .rep pySpaceChar 0 none, ciStr "tax", .wb],
       catList [.wb, ciStr "customer", .rep pySpaceChar 0 none,
         .alt (ciStr "care") (ciStr "support"), .wb],
       wbWord "official", wbWord "authorized", wbWord "verified"]
    weight := 3
    description := "Authority impersonation" }

def linkRequestCat : ScamCategory :=
  { name := "link_request"
    patterns :=
      [catList [.wb, ciStr "click", .rep pySpaceChar 0 none,
         .alt (ciStr "here") (.alt (ciStr "link") (ciStr "button")), .wb],
       wbWord "visit",
       catList [.wb, ciStr "open", .rep pySpaceChar 0 none,
         .alt (ciStr "link") (ciStr "url"), .wb],
       wbWord "download",
       catList [ciStr "http", .rep sCI 0 (some 1), ciStr "://"],
       catList [.wb, ciStr "bit", litCI '.', ciStr "ly", .wb],
       wbWord "tinyurl"]
    weight := 2
    description := "Suspicious link sharing" }

def kycCat : ScamCategory :=
  { name := "kyc"
    patterns :=
      [wbWord "kyc",
       catList [.wb, ciStr "verif", .alt (litCI 'y') (ciStr "ication"), .wb],
       catList [.wb, ciStr "update", .wb, .rep dotChar 0 none, .wb,
         .alt (ciStr "details") (.alt (ciStr "info") (ciStr "account")), .wb],
       wbWord "mandatory", wbWord "compulsory"]
    weight := 3
    description := "KYC/Verification scam" }

/-- `ScamDetector.SCAM_PATTERNS`, in the source's (insertion) order. -/
def SCAM_PATTERNS : List ScamCategory :=
  [urgencyCat, threatCat, sensitiveCat, lotteryCat, financialCat,
   impersonationCat, linkRequestCat, kycCat]

/-- `ScamDetector.SCAM_THRESHOLD`. -/
def SCAM_THRESHOLD : ℚ := 5

/-- A conversation message (the dicts used throughout the source). -/
structure Msg where
  sender : String := ""
  text : String := ""
  timestamp : String := ""
deriving DecidableEq, Repr

/-- Whether any trigger of a category fires on the (already lowered) text;
models the source's inner `for pattern … break` loop. -/
def catHit (cat : ScamCategory) (text : List Char) : Bool :=
  cat.patterns.any (fun p => msearchB p [] text)

/-- One iteration of the scoring loop in `detect_scam`: add the category's
weight on a hit and record the category name once. -/
def scamStep (text : List Char) (acc : ℚ × List String) (cat : ScamCategory) :
    ℚ × List String :=
  if catHit cat text then
    (acc.1 + cat.weight,
     if acc.2.contains cat.name then acc.2 else acc.2 ++ [cat.name])
  else acc

/-- `ScamDetector.detect_scam`.  Returns
`(is_scam, confidence, detected_types, scam_notes)`.  The source's single
loop accumulates the score and the detected-category list together, modelled
as a fold over a pair; an empty `conversation_history` and Python's `None`
behave identically (both falsy), so the history is a plain list. -/
def detect_scam (message : String) (history : List Msg) : Bool × ℚ × List String × String :=
  let text := message.toList.map Char.toLower
  let scan := SCAM_PATTERNS.foldl (scamStep text) ((0 : ℚ), ([] : List String))
  let detected := scan.2
  let totalScore :=
    if history.isEmpty then scan.1
    else
      let historyText := (String.intercalate " "
        ((history.filter (fun m => m.sender == "scammer")).map
          (fun m => m.text))).toList.map Char.toLower
      SCAM_PATTERNS.foldl (fun sc cat =>
        if catHit cat historyText then sc + cat.weight * (1 / 2) else sc) scan.1
  let fullText :=
    if history.isEmpty then message.toList
    else (message ++ " " ++ String.intercalate " " (history.map (fun m => m.text))).toList
  let intel := extract_all fullText
  let intelBoost : ℚ :=
    (if intel.upiIds.isEmpty then 0 else 3 / 20) +
    (if intel.phoneNumbers.isEmpty then 0 else 1 / 10) +
    (if intel.phishingLinks.isEmpty then 0 else 1 / 5)
  let maxPossibleScore : ℚ := SCAM_PATTERNS.foldl (fun a cat => a + cat.weight) 0
  let baseConfidence := min (totalScore / maxPossibleScore) 1
  let confidence := min 1 (baseConfidence + intelBoost)
  let isScam := decide (SCAM_THRESHOLD ≤ totalScore) || decide ((1 / 2 : ℚ) ≤ confidence)
  let notes :=
    (if detected.isEmpty then []
     else ["Detected: " ++ String.intercalate ", "
       (detected.filterMap (fun t =>
         (SCAM_PATTERNS.find? (fun cat => cat.name == t)).map
           (fun cat => cat.description)))]) ++
    (if intel.upiIds.isEmpty then []
     else ["UPI IDs found: " ++ String.intercalate ", " intel.upiIds]) ++
    (if intel.phishingLinks.isEmpty then [] else ["Suspicious URLs detected"]) ++
    (if intel.phoneNumbers.isEmpty then []
     else ["Phone numbers found: " ++ String.intercalate ", " intel.phoneNumbers])
  let scamNotes :=
    if notes.isEmpty then "No specific scam indicators"
    else String.intercalate "; " notes
  (isScam, confidence, detected, scamNotes)

/-- `ScamDetector.get_scam_type`: the fixed priority order for the primary
label. -/
def get_scam_type (detected_patterns : List String) : String :=
  if detected_patterns.contains "lottery" then "Lottery/Prize Scam"
  else if detected_patterns.contains "kyc" then "KYC/Verification Scam"
  else if detected_patterns.contains "financial_bait" then "Financial Fraud"
  else if detected_patterns.contains "threat" then "Threat-based Scam"
  else if detected_patterns.contains "impersonation" then "Impersonation Scam"
  else if detected_patterns.contains "sensitive_request" then "Data Theft Scam"
  else if detected_patterns.contains "link_request" then "Phishing Scam"
  else if detected_patterns.contains "urgency" then "Urgency-based Scam"
  else "General Scam"

/-! ## `config.py` settings and `session_manager.py`

Sessions are stored keyed by identifier, modelling the manager's dict;
wall-clock instants (`datetime.utcnow()`) are supplied by the caller as
abstract `Nat` ticks, and ISO timestamps as strings, since the claims do not
depend on real time. -/

structure Settings where
  maxMessagesPerSession : Nat := 20
  minMessagesForCallback : Nat := 3
  sessionTimeoutSeconds : Nat := 3600
deriving DecidableEq, Repr

/-- The environment-default settings from `config.py`. -/
def defaultSettings : Settings := {}

/-- `SessionState` (session_manager.py). -/
structure SessionState where
  session_id : String := ""
  scam_detected : Bool := false
  scam_confidence : ℚ := 0
  scam_type : String := ""
  messages : List Msg := []
  intelligence : ExtractedIntelligence := {}
  agent_notes : List String := []
  created_at : Nat := 0
  last_activity : Nat := 0
  callback_sent : Bool := false
deriving DecidableEq, Repr

/-- `SessionState.total_messages`. -/
def SessionState.total_messages (s : SessionState) : Nat := s.messages.length

/-- `SessionState.should_send_callback` — note: unlike
`should_trigger_callback` in `main.py`, this property does **not** consult
the extracted intelligence. -/
def SessionState.should_send_callback (cfg : Settings) (s : SessionState) : Bool :=
  s.scam_detected && !s.callback_sent &&
    (s.total_messages ≥ cfg.minMessagesForCallback)

/-- `SessionState.has_good_intel`. -/
def SessionState.has_good_intel (s : SessionState) : Bool :=
  0 < s.intelligence.bankAccounts.length ||
  0 < s.intelligence.upiIds.length ||
  0 < s.intelligence.phishingLinks.length

/-- `SessionState.should_end_session`. -/
def SessionState.should_end_session (cfg : Settings) (s : SessionState) : Bool :=
  if s.total_messages ≥ cfg.maxMessagesPerSession then true
  else if s.has_good_intel && s.total_messages ≥ 8 then true
  else false

/-- The manager's session dict (`SessionManager._sessions`). -/
def Store : Type := String → Option SessionState

/-- The store of a fresh manager. -/
def emptyStore : Store := fun _ => none

/-- Point update of the dict. -/
def Store.set (st : Store) (sid : String) (s : SessionState) : Store :=
  fun k => if k = sid then some s else st k

/-- `ExtractedIntelligence.merge`: per-field append of unseen values (the
source dispatches on the dict keys of the incoming bundle, which are exactly
these five fields). -/
def mergeField (cur vs : List String) : List String :=
  vs.foldl (fun c v => if c.contains v then c else c ++ [v]) cur

def ExtractedIntelligence.merge (cur : ExtractedIntelligence)
    (other : ExtractedIntelligence) : ExtractedIntelligence :=
  { bankAccounts := mergeField cur.bankAccounts other.bankAccounts
    upiIds := mergeField cur.upiIds other.upiIds
    phishingLinks := mergeField cur.phishingLinks other.phishingLinks
    phoneNumbers := mergeField cur.phoneNumbers other.phoneNumbers
    suspiciousKeywords := mergeField cur.suspiciousKeywords other.suspiciousKeywords }

/-- `SessionManager.get_or_create_session` (store part; always touches
`last_activity`). -/
def getOrCreateSession (st : Store) (sid : String) (now : Nat) : Store :=
  match st sid with
  | none =>
    st.set sid { session_id := sid, created_at := now, last_activity := now }
  | some s => st.set sid { s with last_activity := now }

/-- `SessionManager.add_message`: silent no-op when the session is missing;
a falsy (`None` or empty) timestamp is replaced by the current time. -/
def addMessage (st : Store) (sid sender text : String)
    (timestamp : Option String) (nowIso : String) (now : Nat) : Store :=
  match st sid with
  | none => st
  | some s =>
    let ts := match timestamp with
      | none => nowIso
      | some t => if t = "" then nowIso else t
    st.set sid { s with
      messages := s.messages ++ [{ sender := sender, text := text, timestamp := ts }]
      last_activity := now }

/-- `SessionManager.update_scam_detection`: monotonic OR on the flag, max on
the confidence, last-write-wins on a non-empty type label; silent no-op when
the session is missing. -/
def updateScamDetection (st : Store) (sid : String)
    (is_scam : Bool) (confidence : ℚ) (scam_type : String) : Store :=
  match st sid with
  | none => st
  | some s =>
    st.set sid { s with
      scam_detected := if is_scam then true else s.scam_detected
      scam_confidence := max s.scam_confidence confidence
      scam_type := if scam_type ≠ "" then scam_type else s.scam_type }

/-- `SessionManager.add_intelligence`: merge; silent no-op when missing. -/
def addIntelligence (st : Store) (sid : String)
    (intel : ExtractedIntelligence) : Store :=
  match st sid with
  | none => st
  | some s => st.set sid { s with intelligence := s.intelligence.merge intel }

/-- `SessionManager.add_agent_note`: appends a non-empty, unseen note; silent
no-op when missing. -/
def addAgentNote (st : Store) (sid note : String) : Store :=
  match st sid with
  | none => st
  | some s =>
    if note ≠ "" ∧ ¬ s.agent_notes.contains note then
      st.set sid { s with agent_notes := s.agent_notes ++ [note] }
    else st

/-- `SessionManager.mark_callback_sent`: sets the flag; silent no-op when
missing. -/
def markCallbackSent (st : Store) (sid : String) : Store :=
  match st sid with
  | none => st
  | some s => st.set sid { s with callback_sent := true }

/-! ## `main.py`: the callback policy -/

/-- `should_trigger_callback` (main.py): the report-readiness predicate the
endpoint actually evaluates. -/
def shouldTriggerCallback (cfg : Settings) (s : SessionState) : Bool :=
  if s.callback_sent then false
  else if !s.scam_detected then false
  else if s.has_good_intel then true
  else if s.total_messages ≥ cfg.minMessagesForCallback then true
  else false

/-! ## Claims -/

/-- C1: the claim states that `extract_upi_ids` (through `extract_all`)
returns no payment identifier for `"contact me at joe@gmail.com"` because
matches ending in `.com` are excluded.  In the code the generic pattern
`[a-zA-Z0-9._-]+@[a-zA-Z]{2,}` stops matching at the dot, so the match is
`"joe@gmail"`, which does not end in `".com"`; the email filter (the code's
own `# Filter out emails` intent) never fires and the address is reported as
a payment identifier.  This theorem evaluates the code at the failing
input. -/
theorem C1_email_reported_as_upi :
    extract_upi_ids "contact me at joe@gmail.com".toList = ["joe@gmail"] := by
  decide

/-- C3: phone extraction on `"call 9876543210 or +91-9876543210"` returns
exactly the one canonical entry `"+919876543210"`: both raw matches are
stripped to digits, truncated to the last 10, re-prefixed with `+91` and
deduplicated on that canonical form. -/
theorem C3_phone_dedup_canonical :
    extract_phone_numbers "call 9876543210 or +91-9876543210".toList =
      ["+919876543210"] := by
  decide

unseal Rat.add Rat.mul Rat.inv Rat.sub in
/-- C8: the classifier marks the lottery message as a scam and the priority
order resolves the label to the lottery/prize label despite the co-occurring
urgency category. -/
theorem C8_lottery_priority :
    (detect_scam "You have won a lottery! Claim your prize now" []).1 = true ∧
    get_scam_type
      (detect_scam "You have won a lottery! Claim your prize now" []).2.2.1 =
      "Lottery/Prize Scam" := by
  decide

/-- C2 (counterexample): a reachable session state — scam detected, not yet
reported, one UPI id merged, fewer than `MIN_MESSAGES_FOR_CALLBACK = 3`
messages — on which `should_send_callback` (session_manager.py) is `false`
although the claimed condition (scam ∧ unreported ∧ (intel ∨ count ≥ min))
holds, so the claimed equivalence fails for that predicate. -/
def c2Store : Store :=
  let st0 := getOrCreateSession emptyStore "s1" 0
  let st1 := addMessage st0 "s1" "scammer" "send to rogue@ybl now" none "t0" 0
  let st2 := addMessage st1 "s1" "user" "okay, how?" none "t1" 1
  let st3 := updateScamDetection st2 "s1" true (9 / 10) "UPI Fraud"
  addIntelligence st3 "s1" (extract_all "send to rogue@ybl now".toList)

def c2State : SessionState := (c2Store "s1").getD {}

unseal Rat.add Rat.mul Rat.inv Rat.sub in
/-- C2 (counterexample): `should_send_callback` is false on `c2State` even
though the claim's right-hand side holds there. -/
theorem C2_send_callback_not_iff :
    c2State.scam_detected = true ∧ c2State.callback_sent = false ∧
    c2State.has_good_intel = true ∧
    SessionState.should_send_callback defaultSettings c2State = false := by
  decide

/-- C2 (amended): the equivalence holds for the predicate the endpoint
actually uses, `should_trigger_callback` (main.py): true iff scam detected,
not yet reported, and (actionable intelligence present or message count at
least the configured minimum).  `should_send_callback` instead omits the
intelligence disjunct. -/
theorem C2_trigger_callback_iff (cfg : Settings) (s : SessionState) :
    shouldTriggerCallback cfg s = true ↔
      (s.scam_detected = true ∧ s.callback_sent = false ∧
       (s.has_good_intel = true ∨ cfg.minMessagesForCallback ≤ s.total_messages)) := by
  unfold shouldTriggerCallback
  by_cases hn : cfg.minMessagesForCallback ≤ s.total_messages <;>
    cases h1 : s.callback_sent <;> cases h2 : s.scam_detected <;>
      cases h3 : s.has_good_intel <;>
        simp [h1, h2, h3, hn, ge_iff_le]

/-- C4: over any sequence of recorded classification verdicts,
`scam_detected` never falls back from true to false and `scam_confidence`
never decreases. -/
structure Verdict where
  is_scam : Bool := false
  confidence : ℚ := 0
  scam_type : String := ""
deriving DecidableEq, Repr

/-- Fold of `update_scam_detection` over a verdict sequence. -/
def applyVerdicts (st : Store) (sid : String) (vs : List Verdict) : Store :=
  vs.foldl (fun st v => updateScamDetection st sid v.is_scam v.confidence v.scam_type) st

theorem C4_monotone_detection (st : Store) (sid : String) (vs : List Verdict)
    (s s' : SessionState) (h : st sid = some s)
    (h' : applyVerdicts st sid vs sid = some s') :
    (s.scam_detected = true → s'.scam_detected = true) ∧
    s.scam_confidence ≤ s'.scam_confidence := by
  induction vs generalizing st s with
  | nil =>
    simp only [applyVerdicts, List.foldl_nil] at h'
    rw [h] at h'
    injection h' with h'
    subst h'
    exact ⟨fun hh => hh, le_refl _⟩
  | cons v vs ih =>
    simp only [applyVerdicts, List.foldl_cons] at h' ⊢
    have hmid : (updateScamDetection st sid v.is_scam v.confidence v.scam_type) sid =
        some { s with
          scam_detected := if v.is_scam then true else s.scam_detected
          scam_confidence := max s.scam_confidence v.confidence
          scam_type := if v.scam_type ≠ "" then v.scam_type else s.scam_type } := by
      simp [updateScamDetection, h, Store.set]
    have := ih (updateScamDetection st sid v.is_scam v.confidence v.scam_type) _ hmid h'
    refine ⟨fun hd => this.1 ?_, le_trans (le_max_left _ _) this.2⟩
    simp only [hd]
    split <;> rfl

def c4Store : Store :=
  emptyStore.set "a" { session_id := "a", scam_detected := true, scam_confidence := 1 / 2 }

def c4Verdicts : List Verdict :=
  [{ is_scam := false, confidence := 1 / 4, scam_type := "" },
   { is_scam := true, confidence := 3 / 4, scam_type := "Phishing Scam" }]

def c4Before : SessionState :=
  { session_id := "a", scam_detected := true, scam_confidence := 1 / 2 }

def c4After : SessionState :=
  { session_id := "a", scam_detected := true, scam_confidence := 3 / 4,
    scam_type := "Phishing Scam" }

unseal Rat.add Rat.mul Rat.inv Rat.sub in
theorem C4_monotone_detection_witness :
    c4Store "a" = some c4Before ∧
    applyVerdicts c4Store "a" c4Verdicts "a" = some c4After ∧
    ((c4Before.scam_detected = true → c4After.scam_detected = true) ∧
     c4Before.scam_confidence ≤ c4After.scam_confidence) :=
  ⟨by decide, by decide,
   C4_monotone_detection c4Store "a" c4Verdicts c4Before c4After
     (by decide) (by decide)⟩

/-- C5: `mark_callback_sent` is idempotent on the whole store — a second
call leaves the state identical to one call. -/
theorem C5_mark_reported_idempotent (st : Store) (sid : String) :
    markCallbackSent (markCallbackSent st sid) sid = markCallbackSent st sid := by
  cases h : st sid with
  | none =>
    have hst : markCallbackSent st sid = st := by
      simp [markCallbackSent, h]
    rw [hst, hst]
  | some s =>
    have h1 : markCallbackSent st sid =
        st.set sid { s with callback_sent := true } := by
      simp [markCallbackSent, h]
    have h2 : (st.set sid { s with callback_sent := true }) sid =
        some { s with callback_sent := true } := by
      simp [Store.set]
    rw [h1]
    simp only [markCallbackSent, h2]
    funext k
    simp only [Store.set]
    split <;> rfl

/-- C6: every mutation on a session identifier absent from the store is a
silent no-op: no error, no session created, store unchanged. -/
theorem C6_missing_session_noop (st : Store) (sid : String) (h : st sid = none)
    (sender text : String) (timestamp : Option String) (nowIso : String) (now : Nat)
    (is_scam : Bool) (confidence : ℚ) (scam_type : String)
    (intel : ExtractedIntelligence) (note : String) :
    addMessage st sid sender text timestamp nowIso now = st ∧
    updateScamDetection st sid is_scam confidence scam_type = st ∧
    addIntelligence st sid intel = st ∧
    addAgentNote st sid note = st ∧
    markCallbackSent st sid = st := by
  refine ⟨?_, ?_, ?_, ?_, ?_⟩ <;>
    simp [addMessage, updateScamDetection, addIntelligence, addAgentNote,
      markCallbackSent, h]

theorem C6_missing_session_noop_witness :
    emptyStore "ghost" = none ∧
    (addMessage emptyStore "ghost" "scammer" "hello" none "t0" 0 = emptyStore ∧
     updateScamDetection emptyStore "ghost" true (1 / 2) "Phishing Scam" = emptyStore ∧
     addIntelligence emptyStore "ghost" {} = emptyStore ∧
     addAgentNote emptyStore "ghost" "note" = emptyStore ∧
     markCallbackSent emptyStore "ghost" = emptyStore) :=
  ⟨rfl, C6_missing_session_noop emptyStore "ghost" rfl "scammer" "hello" none "t0" 0
    true (1 / 2) "Phishing Scam" {} "note"⟩

/-- C9: a session should end iff the message cap is reached, or actionable
intelligence is present and at least 8 messages were exchanged; the
predicate does not depend on whether the session was reported. -/
theorem C9_end_session_iff (cfg : Settings) (s : SessionState) (b : Bool) :
    (SessionState.should_end_session cfg s = true ↔
      (cfg.maxMessagesPerSession ≤ s.total_messages ∨
       (s.has_good_intel = true ∧ 8 ≤ s.total_messages))) ∧
    SessionState.should_end_session cfg { s with callback_sent := b } =
      SessionState.should_end_session cfg s := by
  constructor
  · unfold SessionState.should_end_session
    by_cases h1 : cfg.maxMessagesPerSession ≤ s.total_messages <;>
      by_cases h3 : 8 ≤ s.total_messages <;>
        cases h2 : s.has_good_intel <;>
          simp [h1, h2, h3, ge_iff_le]
  · rfl

/-! ## Lemmas for C10: a standalone 10-digit token is reported both as a
bank account and (canonicalized) as a phone number -/

theorem digit_isWordChar {c : Char} (h : c.isDigit = true) : isWordChar c = true := by
  simp [isWordChar, Char.isAlphanum, h]

theorem nonword_not_digit {c : Char} (h : isWordChar c = false) : c.isDigit = false := by
  by_contra hc
  simp only [Bool.not_eq_false] at hc
  rw [digit_isWordChar hc] at h
  exact absurd h (by simp)

theorem d69_digit {c : Char} (h : d69Char c = true) : c.isDigit = true := by
  have hc : c = '6' ∨ c = '7' ∨ c = '8' ∨ c = '9' := by
    simpa [d69Char, Bool.or_eq_true, beq_iff_eq, or_assoc] using h
  rcases hc with rfl | rfl | rfl | rfl <;> decide

/-- Greedy repetition succeeds at its first (greediest) try. -/
theorem tryCounts_first {α : Type} (lo : Nat) (rev s : List Char)
    (k : List Char → List Char → Option α) (j : Nat) (v : α)
    (hlo : lo ≤ j) (hk : k (shift j rev s).1 (shift j rev s).2 = some v) :
    tryCounts lo rev s k j = some v := by
  match j with
  | 0 =>
    simp only [tryCounts, Nat.le_zero.mp hlo, if_true]
    simpa [shift] using hk
  | j + 1 =>
    simp only [tryCounts, if_neg (by omega : ¬ (j + 1 < lo))]
    rw [hk]

theorem maxRun_exact (f : Char → Bool) (d suf : List Char)
    (hall : ∀ c ∈ d, f c = true) (hsuf : ∀ x xs, suf = x :: xs → f x = false) :
    maxRun f (d ++ suf) = d.length := by
  induction d with
  | nil =>
    match suf with
    | [] => rfl
    | x :: xs => simp [maxRun, hsuf x xs rfl]
  | cons c d' ih =>
    have hc : f c = true := hall c (by simp)
    simp only [List.cons_append, maxRun, hc, if_true, List.length_cons, List.append_eq]
    rw [ih (fun x hx => hall x (by simp [hx]))]

theorem reverse_head_nonempty {d : List Char} (h : d ≠ []) :
    ∃ cl rest, d.reverse = cl :: rest ∧ cl ∈ d := by
  match hr : d.reverse with
  | [] =>
    have := congrArg List.reverse hr
    simp at this
    exact absurd this h
  | cl :: rest =>
    refine ⟨cl, rest, rfl, ?_⟩
    have : cl ∈ d.reverse := by simp [hr]
    simpa using this

/-- Inversion principles for the match relation. -/
theorem mrel_seq_inv {a b : RE} {rev s rev1 s1 : List Char}
    (h : MRel (.seq a b) rev s rev1 s1) :
    ∃ rev2 s2, MRel a rev s rev2 s2 ∧ MRel b rev2 s2 rev1 s1 := by
  cases h with
  | seqR h1 h2 => exact ⟨_, _, h1, h2⟩

theorem mrel_cls_inv {f : Char → Bool} {rev s rev1 s1 : List Char}
    (h : MRel (.cls f) rev s rev1 s1) :
    ∃ c, f c = true ∧ s = c :: s1 ∧ rev1 = c :: rev := by
  cases h with
  | cls hf => exact ⟨_, hf, rfl, rfl⟩

theorem mrel_rep_inv {f : Char → Bool} {lo : Nat} {hi : Option Nat}
    {rev s rev1 s1 : List Char} (h : MRel (.rep f lo hi) rev s rev1 s1) :
    ∃ cs, (∀ c ∈ cs, f c = true) ∧ lo ≤ cs.length ∧ s = cs ++ s1 := by
  cases h with
  | rep hall hlo hhi => exact ⟨_, hall, hlo, rfl⟩

theorem mrel_wb_inv {rev s rev1 s1 : List Char} (h : MRel .wb rev s rev1 s1) :
    s1 = s ∧ rev1 = rev := by
  cases h with
  | wb hb => exact ⟨rfl, rfl⟩

theorem mrel_alt_inv {a b : RE} {rev s rev1 s1 : List Char}
    (h : MRel (.alt a b) rev s rev1 s1) :
    MRel a rev s rev1 s1 ∨ MRel b rev s rev1 s1 := by
  cases h with
  | altL h1 => exact Or.inl h1
  | altR h1 => exact Or.inr h1

/-- At a position preceded by a non-word character, `\b(\d{9,18})\b` matches
exactly the 10-digit run `d` (greedy first try), leaving `suf`. -/
theorem bank_hit (d suf rev : List Char) (hlen : d.length = 10)
    (hdig : ∀ c ∈ d, c.isDigit = true) (hne : d ≠ [])
    (hsuf : wordOpt suf.head? = false) (hrev : wordOpt rev.head? = false) :
    matchHere bankAccountPat rev (d ++ suf) = some (d.reverse ++ rev, suf) := by
  obtain ⟨c0, d', rfl⟩ : ∃ c0 d', d = c0 :: d' := by
    match d, hne with
    | c0 :: d', _ => exact ⟨c0, d', rfl⟩
  simp only [List.cons_append]
  have hword0 : wordOpt (c0 :: (d' ++ suf)).head? = true := by
    show wordOpt (some c0) = true
    exact digit_isWordChar (hdig c0 (by simp))
  have hb1 : isBoundary rev.head? (c0 :: (d' ++ suf)).head? = true := by
    unfold isBoundary
    rw [hword0, hrev]
    decide
  have hsufd : ∀ x xs, suf = x :: xs → x.isDigit = false := by
    intro x xs hx
    subst hx
    exact nonword_not_digit (by simpa [wordOpt] using hsuf)
  have hmax : maxRun Char.isDigit (c0 :: (d' ++ suf)) = 10 := by
    have h0 := maxRun_exact Char.isDigit (c0 :: d') suf hdig hsufd
    rw [hlen] at h0
    simpa using h0
  have hcap : capOf Char.isDigit (some 18) (c0 :: (d' ++ suf)) = 10 := by
    simp only [capOf, hmax]
    decide
  obtain ⟨cl, crest, hcl, hclmem⟩ := reverse_head_nonempty (show (c0 :: d') ≠ [] by simp)
  have hword1 : wordOpt ((c0 :: d').reverse ++ rev).head? = true := by
    rw [hcl]
    show wordOpt (some cl) = true
    exact digit_isWordChar (hdig cl hclmem)
  have hb2 : isBoundary ((c0 :: d').reverse ++ rev).head? suf.head? = true := by
    unfold isBoundary
    rw [hword1, hsuf]
    decide
  have hsh : shift 10 rev (c0 :: (d' ++ suf)) = ((c0 :: d').reverse ++ rev, suf) := by
    have h0 := shift_exact (c0 :: d') rev suf
    rw [hlen] at h0
    simpa using h0
  show mrun bankAccountPat rev (c0 :: (d' ++ suf)) _ = _
  simp only [bankAccountPat, catList, mrun]
  rw [if_pos hb1, hcap]
  refine tryCounts_first 9 rev (c0 :: (d' ++ suf)) _ 10 _ (by omega) ?_
  rw [hsh]
  simp only [mrun]
  rw [if_pos hb2]

/-- Any match of `\b(\d{9,18})\b` consumes a nonempty run of digits. -/
theorem bank_consumed {rev s rev1 s1 : List Char}
    (h : MRel bankAccountPat rev s rev1 s1) :
    ∃ cs, s = cs ++ s1 ∧ 1 ≤ cs.length ∧ ∀ c ∈ cs, c.isDigit = true := by
  simp only [bankAccountPat, catList] at h
  obtain ⟨r2, s2, h1, h⟩ := mrel_seq_inv h
  obtain ⟨hs2, hr2⟩ := mrel_wb_inv h1
  obtain ⟨r3, s3, h3, h4⟩ := mrel_seq_inv h
  obtain ⟨cs, hall, hlo, hrep⟩ := mrel_rep_inv h3
  obtain ⟨hs4, -⟩ := mrel_wb_inv h4
  subst hs2
  subst hs4
  exact ⟨cs, hrep, by omega, hall⟩

/-- At a position preceded by a non-word character, `\b[6-9]\d{9}\b` matches
exactly the 10-digit run `d` (first digit 6–9), leaving `suf`. -/
theorem phone4_hit (d suf rev : List Char) (hlen : d.length = 10)
    (hdig : ∀ c ∈ d, c.isDigit = true)
    (h69 : ∃ c0 d', d = c0 :: d' ∧ d69Char c0 = true)
    (hsuf : wordOpt suf.head? = false) (hrev : wordOpt rev.head? = false) :
    matchHere phonePat4 rev (d ++ suf) = some (d.reverse ++ rev, suf) := by
  obtain ⟨c0, d', rfl, hc69⟩ := h69
  simp only [List.cons_append]
  have hword0 : wordOpt (c0 :: (d' ++ suf)).head? = true := by
    show wordOpt (some c0) = true
    exact digit_isWordChar (hdig c0 (by simp))
  have hb1 : isBoundary rev.head? (c0 :: (d' ++ suf)).head? = true := by
    unfold isBoundary
    rw [hword0, hrev]
    decide
  have hsufd : ∀ x xs, suf = x :: xs → x.isDigit = false := by
    intro x xs hx
    subst hx
    exact nonword_not_digit (by simpa [wordOpt] using hsuf)
  have hd' : ∀ c ∈ d', c.isDigit = true := fun c hc => hdig c (by simp [hc])
  have hlen9 : d'.length = 9 := by simpa using hlen
  have hmax : maxRun Char.isDigit (d' ++ suf) = 9 := by
    rw [maxRun_exact Char.isDigit d' suf hd' hsufd, hlen9]
  have hcap : capOf Char.isDigit (some 9) (d' ++ suf) = 9 := by
    simp only [capOf, hmax]
    decide
  obtain ⟨cl, crest, hcl, hclmem⟩ :=
    reverse_head_nonempty (show (c0 :: d') ≠ [] by simp)
  have hword1 : wordOpt ((c0 :: d').reverse ++ rev).head? = true := by
    rw [hcl]
    show wordOpt (some cl) = true
    exact digit_isWordChar (hdig cl hclmem)
  have hb2 : isBoundary ((c0 :: d').reverse ++ rev).head? suf.head? = true := by
    unfold isBoundary
    rw [hword1, hsuf]
    decide
  have hsh : shift 9 (c0 :: rev) (d' ++ suf) = (d'.reverse ++ (c0 :: rev), suf) := by
    have h0 := shift_exact d' (c0 :: rev) suf
    rw [hlen9] at h0
    exact h0
  show mrun phonePat4 rev (c0 :: (d' ++ suf)) _ = _
  simp only [phonePat4, catList, mrun]
  rw [if_pos hb1]
  rw [if_pos hc69, hcap]
  refine tryCounts_first 9 (c0 :: rev) (d' ++ suf) _ 9 _ (by omega) ?_
  rw [hsh]
  simp only [mrun]
  have hrevs : d'.reverse ++ (c0 :: rev) = (c0 :: d').reverse ++ rev := by
    simp
  rw [hrevs, if_pos hb2]

/-- Any match of `\b[6-9]\d{9}\b` consumes a nonempty run of digits. -/
theorem phone4_consumed {rev s rev1 s1 : List Char}
    (h : MRel phonePat4 rev s rev1 s1) :
    ∃ cs, s = cs ++ s1 ∧ 1 ≤ cs.length ∧ ∀ c ∈ cs, c.isDigit = true := by
  simp only [phonePat4, catList] at h
  obtain ⟨r2, s2, h1, h⟩ := mrel_seq_inv h
  obtain ⟨hs2, hr2⟩ := mrel_wb_inv h1
  obtain ⟨r3, s3, h3, h4⟩ := mrel_seq_inv h
  obtain ⟨c, hc, hcs, hcr⟩ := mrel_cls_inv h3
  obtain ⟨r4, s4, h5, h6⟩ := mrel_seq_inv h4
  obtain ⟨cs, hall, hlo, hrep⟩ := mrel_rep_inv h5
  obtain ⟨hs4, -⟩ := mrel_wb_inv h6
  subst hs2
  subst hs4
  refine ⟨c :: cs, by simp [hcs, hrep], by simp, ?_⟩
  intro x hx
  rcases List.mem_cons.mp hx with rfl | hx
  · exact d69_digit hc
  · exact hall x hx

/-! ## Generic lemmas about the extractors' dedup-append folds -/

theorem foldl_mem_preserve {α β : Type} (f : List α → β → List α) (x : α)
    (hpres : ∀ acc m, x ∈ acc → x ∈ f acc m) :
    ∀ (l : List β) (acc : List α), x ∈ acc → x ∈ l.foldl f acc := by
  intro l
  induction l with
  | nil => intro acc h; simpa using h
  | cons b l2 ih => intro acc h; exact ih (f acc b) (hpres acc b h)

theorem foldl_mem_add {α β : Type} (f : List α → β → List α) (x : α) (m0 : β)
    (hpres : ∀ acc m, x ∈ acc → x ∈ f acc m)
    (hadd : ∀ acc, x ∈ f acc m0) :
    ∀ (l : List β) (acc : List α), m0 ∈ l → x ∈ l.foldl f acc := by
  intro l
  induction l with
  | nil => intro acc h; simp at h
  | cons b l2 ih =>
    intro acc h
    rcases List.mem_cons.mp h with heq | h2
    · subst heq
      exact foldl_mem_preserve f x hpres l2 (f acc m0) (hadd acc)
    · exact ih (f acc b) h2

theorem foldl_mem_mono {α β : Type} (f : List α → β → List α)
    (hmono : ∀ acc acc2 m, (∀ x, x ∈ acc → x ∈ acc2) →
      ∀ x, x ∈ f acc m → x ∈ f acc2 m) :
    ∀ (l : List β) (acc acc2 : List α), (∀ x, x ∈ acc → x ∈ acc2) →
    ∀ x, x ∈ l.foldl f acc → x ∈ l.foldl f acc2 := by
  intro l
  induction l with
  | nil => intro acc acc2 hsub x hx; exact hsub x hx
  | cons b l2 ih =>
    intro acc acc2 hsub x hx
    exact ih (f acc b) (f acc2 b) (hmono acc acc2 b hsub) x hx

/-- If each per-pattern match list in the longer text extends the one in the
shorter text, the nested extraction fold only gains members. -/
theorem foldl_outer_mono {α β γ : Type} (g : List α → β → List α)
    (hmono : ∀ acc acc2 m, (∀ x, x ∈ acc → x ∈ acc2) →
      ∀ x, x ∈ g acc m → x ∈ g acc2 m)
    (hgrow : ∀ acc m x, x ∈ acc → x ∈ g acc m)
    (L1 L2 : γ → List β) :
    ∀ (ps : List γ), (∀ p ∈ ps, ∃ suf, L2 p = L1 p ++ suf) →
    ∀ (acc acc2 : List α), (∀ x, x ∈ acc → x ∈ acc2) →
    ∀ x, x ∈ ps.foldl (fun a p => (L1 p).foldl g a) acc →
    x ∈ ps.foldl (fun a p => (L2 p).foldl g a) acc2 := by
  intro g0
  induction g0 with
  | nil => intro _ acc acc2 hsub x hx; exact hsub x hx
  | cons p ps2 ih =>
    intro hsplit acc acc2 hsub x hx
    simp only [List.foldl_cons] at hx ⊢
    obtain ⟨suf, hsuf⟩ := hsplit p (by simp)
    refine ih (fun q hq => hsplit q (by simp [hq])) _ _ ?_ x hx
    intro y hy
    rw [hsuf, List.foldl_append]
    exact foldl_mem_preserve g y (fun a m h => hgrow a m y h) suf _
      (foldl_mem_mono g hmono (L1 p) acc acc2 hsub y hy)

/-- A nonempty nested extraction fold pinpoints a pattern with a nonempty
match list. -/
theorem outer_foldl_ne_nil {α β γ : Type} (g : List α → β → List α)
    (L : γ → List β) :
    ∀ (ps : List γ) (acc : List α),
    ps.foldl (fun a p => (L p).foldl g a) acc ≠ [] →
    acc ≠ [] ∨ ∃ p ∈ ps, L p ≠ [] := by
  intro ps
  induction ps with
  | nil => intro acc h; exact Or.inl h
  | cons p ps2 ih =>
    intro acc h
    simp only [List.foldl_cons] at h
    rcases ih ((L p).foldl g acc) h with h2 | h2
    · by_cases hL : L p = []
      · rw [hL] at h2
        exact Or.inl (by simpa using h2)
      · exact Or.inr ⟨p, by simp, hL⟩
    · obtain ⟨q, hq, hq2⟩ := h2
      exact Or.inr ⟨q, by simp [hq], hq2⟩

theorem mem_dedup_append {acc : List String} {v x : String}
    (h : x ∈ (if acc.contains v then acc else acc ++ [v])) : x ∈ acc ∨ x = v := by
  split at h
  · exact Or.inl h
  · rcases List.mem_append.mp h with h2 | h2
    · exact Or.inl h2
    · exact Or.inr (by simpa using h2)

theorem dedup_append_mem_self (acc : List String) (v : String) :
    v ∈ (if acc.contains v then acc else acc ++ [v]) := by
  split
  · rename_i h
    simpa using h
  · exact List.mem_append_right _ (by simp)

theorem dedup_append_mem_of_mem (acc : List String) (v : String) {x : String}
    (h : x ∈ acc) : x ∈ (if acc.contains v then acc else acc ++ [v]) := by
  split
  · exact h
  · exact List.mem_append_left _ h

/-! ## Properties of the individual extraction steps -/

theorem upiStep_grow (acc : List String) (m : List Char) {x : String}
    (h : x ∈ acc) : x ∈ upiStep acc m := by
  unfold upiStep
  split
  · exact dedup_append_mem_of_mem acc _ h
  · exact h

theorem upiStep_mono (acc acc2 : List String) (m : List Char)
    (hsub : ∀ x, x ∈ acc → x ∈ acc2) :
    ∀ x, x ∈ upiStep acc m → x ∈ upiStep acc2 m := by
  intro x hx
  unfold upiStep at hx ⊢
  split at hx
  · rename_i hcond
    rw [if_pos hcond]
    rcases mem_dedup_append hx with h2 | h2
    · exact dedup_append_mem_of_mem acc2 _ (hsub x h2)
    · subst h2
      exact dedup_append_mem_self acc2 _
  · rename_i hcond
    rw [if_neg hcond]
    exact hsub x hx

theorem urlStep_grow (acc : List String) (m : List Char) {x : String}
    (h : x ∈ acc) : x ∈ urlStep acc m := by
  unfold urlStep
  dsimp only
  split
  · exact List.mem_append_left _ h
  · exact h

theorem urlStep_mono (acc acc2 : List String) (m : List Char)
    (hsub : ∀ x, x ∈ acc → x ∈ acc2) :
    ∀ x, x ∈ urlStep acc m → x ∈ urlStep acc2 m := by
  intro x hx
  unfold urlStep at hx ⊢
  dsimp only at hx ⊢
  by_cases hsafe : (SAFE_DOMAINS.any
      (fun safe => containsSub (m.map Char.toLower) safe.toList)) = true
  · simp only [hsafe, Bool.not_true, Bool.false_and, Bool.false_eq_true,
      if_false] at hx ⊢
    exact hsub x hx
  · simp only [Bool.not_eq_true] at hsafe
    simp only [hsafe, Bool.not_false, Bool.true_and] at hx ⊢
    split at hx
    · rename_i hnc
      rcases List.mem_append.mp hx with h2 | h2
      · have h3 := hsub x h2
        split
        · exact List.mem_append_left _ h3
        · exact h3
      · simp only [List.mem_singleton] at h2
        subst h2
        split
        · exact List.mem_append_right _ (by simp)
        · rename_i hc2
          simp only [Bool.not_eq_true, Bool.not_eq_false] at hc2
          simpa using hc2
    · have h3 := hsub x hx
      split
      · exact List.mem_append_left _ h3
      · exact h3

theorem phoneStep_grow (acc : List String) (m : List Char) {x : String}
    (h : x ∈ acc) : x ∈ phoneStep acc m := by
  unfold phoneStep
  dsimp only
  split
  · exact dedup_append_mem_of_mem acc _ h
  · exact h

theorem phoneStep_add (acc : List String) (m : List Char)
    (h : 10 ≤ ((m.filter (fun c => !sepChar c)).filter Char.isDigit).length) :
    ("+91" ++ String.mk (((m.filter (fun c => !sepChar c)).filter Char.isDigit).drop
      (((m.filter (fun c => !sepChar c)).filter Char.isDigit).length - 10)))
      ∈ phoneStep acc m := by
  unfold phoneStep
  dsimp only
  rw [if_pos h]
  exact dedup_append_mem_self acc _

theorem bankStep_grow (acc : List String) (m : List Char) {x : String}
    (h : x ∈ acc) : x ∈ bankStep acc m := by
  unfold bankStep
  split
  · exact dedup_append_mem_of_mem acc _ h
  · exact h

theorem bankStep_add (acc : List String) (m : List Char)
    (h9 : 9 ≤ m.length) (h18 : m.length ≤ 18) :
    String.mk m ∈ bankStep acc m := by
  unfold bankStep
  rw [if_pos ⟨h9, h18⟩]
  exact dedup_append_mem_self acc _

theorem ifscStep_grow (acc : List String) (m : List Char) {x : String}
    (h : x ∈ acc) : x ∈ ifscStep acc m := by
  unfold ifscStep
  exact dedup_append_mem_of_mem acc _ h

theorem digit_not_sep {c : Char} (h : c.isDigit = true) : sepChar c = false := by
  by_contra hc
  simp only [Bool.not_eq_false] at hc
  have hcases : c = ' ' ∨ c = '\t' ∨ c = '\n' ∨ c = '\r' ∨
      c = '\x0b' ∨ c = '\x0c' ∨ c = '-' := by
    simpa [sepChar, pySpaceChar, Bool.or_eq_true, beq_iff_eq, or_assoc] using hc
  rcases hcases with rfl|rfl|rfl|rfl|rfl|rfl|rfl <;> exact absurd h (by decide)

/-- Stripping the separator class never removes a digit, so the extractor's
two filters compose to a plain digit filter. -/
theorem filter_clean_digits (m : List Char) :
    (m.filter (fun c => !sepChar c)).filter Char.isDigit = m.filter Char.isDigit := by
  rw [List.filter_filter]
  apply List.filter_congr
  intro a _
  cases hd : a.isDigit with
  | true => simp [digit_not_sep hd, hd]
  | false => simp [hd]

/-! ## Persistence of extracted intelligence under appended text -/

theorem upi_patterns_space_barrier :
    ∀ p ∈ UPI_PATTERNS,
      hasWB p = false ∧ acceptsChar p ' ' = false ∧ 1 ≤ minConsume p := by
  decide

theorem url_patterns_space_barrier :
    ∀ p ∈ URL_PATTERNS,
      hasWB p = false ∧ acceptsChar p ' ' = false ∧ 1 ≤ minConsume p := by
  decide

theorem findAllL_space_split (p : RE) (hwb : hasWB p = false)
    (hacc : acceptsChar p ' ' = false) (hmin : 1 ≤ minConsume p)
    (b t : List Char) :
    findAllL p (b ++ ' ' :: t) =
      findAllL p b ++ findAllAux p (b.reverse ++ []) (' ' :: t) :=
  findAllAux_barrier p ' ' t hwb hacc hmin b.length b [] le_rfl

theorem extract_upi_ids_mono (b t : List Char) :
    ∀ x ∈ extract_upi_ids b, x ∈ extract_upi_ids (b ++ ' ' :: t) := by
  intro x hx
  unfold extract_upi_ids at hx ⊢
  refine foldl_outer_mono upiStep
    (fun a a2 m hs y hy => upiStep_mono a a2 m hs y hy)
    (fun a m y hy => upiStep_grow a m hy)
    (fun p => findAllL p b) (fun p => findAllL p (b ++ ' ' :: t)) UPI_PATTERNS
    ?_ [] [] (fun y hy => hy) x hx
  intro p hp
  obtain ⟨h1, h2, h3⟩ := upi_patterns_space_barrier p hp
  exact ⟨_, findAllL_space_split p h1 h2 h3 b t⟩

theorem extract_upi_ids_persist (b t : List Char) (h : extract_upi_ids b ≠ []) :
    extract_upi_ids (b ++ ' ' :: t) ≠ [] := by
  obtain ⟨x, hx⟩ := List.exists_mem_of_ne_nil _ h
  exact List.ne_nil_of_mem (extract_upi_ids_mono b t x hx)

theorem extract_urls_mono (b t : List Char) :
    ∀ x ∈ extract_urls b, x ∈ extract_urls (b ++ ' ' :: t) := by
  intro x hx
  unfold extract_urls at hx ⊢
  refine foldl_outer_mono urlStep
    (fun a a2 m hs y hy => urlStep_mono a a2 m hs y hy)
    (fun a m y hy => urlStep_grow a m hy)
    (fun p => findAllL p b) (fun p => findAllL p (b ++ ' ' :: t)) URL_PATTERNS
    ?_ [] [] (fun y hy => hy) x hx
  intro p hp
  obtain ⟨h1, h2, h3⟩ := url_patterns_space_barrier p hp
  exact ⟨_, findAllL_space_split p h1 h2 h3 b t⟩

theorem extract_urls_persist (b t : List Char) (h : extract_urls b ≠ []) :
    extract_urls (b ++ ' ' :: t) ≠ [] := by
  obtain ⟨x, hx⟩ := List.exists_mem_of_ne_nil _ h
  exact List.ne_nil_of_mem (extract_urls_mono b t x hx)

theorem filter_digit_count_ge (pre2 csd : List Char) (c4 : Char)
    (hc4 : c4.isDigit = true) (hd : ∀ c ∈ csd, c.isDigit = true) :
    csd.length + 1 ≤ ((pre2 ++ c4 :: csd).filter Char.isDigit).length := by
  rw [List.filter_append, List.length_append, List.filter_cons_of_pos hc4,
    List.filter_eq_self.mpr hd]
  simp only [List.length_cons]
  omega

/-- Every match of `\+91[\s-]?[6-9]\d{9}` contains at least 10 digits. -/
theorem phone1_digits {rev s rev1 s1 : List Char} (h : MRel phonePat1 rev s rev1 s1) :
    ∃ cs, s = cs ++ s1 ∧ 10 ≤ (cs.filter Char.isDigit).length := by
  simp only [phonePat1, catList, lit] at h
  obtain ⟨r2, s2, h1, h⟩ := mrel_seq_inv h
  obtain ⟨c1, -, hs1, -⟩ := mrel_cls_inv h1
  obtain ⟨r3, s3, h2, h⟩ := mrel_seq_inv h
  obtain ⟨c2, -, hs2, -⟩ := mrel_cls_inv h2
  obtain ⟨r4, s4, h3, h⟩ := mrel_seq_inv h
  obtain ⟨c3, -, hs3, -⟩ := mrel_cls_inv h3
  obtain ⟨r5, s5, h4, h⟩ := mrel_seq_inv h
  obtain ⟨cs0, -, -, hs4⟩ := mrel_rep_inv h4
  obtain ⟨r6, s6, h5, h6⟩ := mrel_seq_inv h
  obtain ⟨c4, hc4, hs5, -⟩ := mrel_cls_inv h5
  obtain ⟨csd, hall, hlo, hs6⟩ := mrel_rep_inv h6
  refine ⟨c1 :: c2 :: c3 :: (cs0 ++ c4 :: csd), ?_, ?_⟩
  · subst hs6 hs5 hs4 hs3 hs2 hs1
    simp
  · have hcnt := filter_digit_count_ge (c1 :: c2 :: c3 :: cs0) csd c4
      (d69_digit hc4) hall
    simp only [List.cons_append] at hcnt
    omega

/-- Every match of `91[\s-]?[6-9]\d{9}` contains at least 10 digits. -/
theorem phone2_digits {rev s rev1 s1 : List Char} (h : MRel phonePat2 rev s rev1 s1) :
    ∃ cs, s = cs ++ s1 ∧ 10 ≤ (cs.filter Char.isDigit).length := by
  simp only [phonePat2, catList, lit] at h
  obtain ⟨r2, s2, h1, h⟩ := mrel_seq_inv h
  obtain ⟨c1, -, hs1, -⟩ := mrel_cls_inv h1
  obtain ⟨r3, s3, h2, h⟩ := mrel_seq_inv h
  obtain ⟨c2, -, hs2, -⟩ := mrel_cls_inv h2
  obtain ⟨r5, s5, h4, h⟩ := mrel_seq_inv h
  obtain ⟨cs0, -, -, hs4⟩ := mrel_rep_inv h4
  obtain ⟨r6, s6, h5, h6⟩ := mrel_seq_inv h
  obtain ⟨c4, hc4, hs5, -⟩ := mrel_cls_inv h5
  obtain ⟨csd, hall, hlo, hs6⟩ := mrel_rep_inv h6
  refine ⟨c1 :: c2 :: (cs0 ++ c4 :: csd), ?_, ?_⟩
  · subst hs6 hs5 hs4 hs2 hs1
    simp
  · have hcnt := filter_digit_count_ge (c1 :: c2 :: cs0) csd c4
      (d69_digit hc4) hall
    simp only [List.cons_append] at hcnt
    omega

/-- Every match of `0[6-9]\d{9}` contains at least 10 digits. -/
theorem phone3_digits {rev s rev1 s1 : List Char} (h : MRel phonePat3 rev s rev1 s1) :
    ∃ cs, s = cs ++ s1 ∧ 10 ≤ (cs.filter Char.isDigit).length := by
  simp only [phonePat3, catList, lit] at h
  obtain ⟨r2, s2, h1, h⟩ := mrel_seq_inv h
  obtain ⟨c1, -, hs1, -⟩ := mrel_cls_inv h1
  obtain ⟨r6, s6, h5, h6⟩ := mrel_seq_inv h
  obtain ⟨c4, hc4, hs5, -⟩ := mrel_cls_inv h5
  obtain ⟨csd, hall, hlo, hs6⟩ := mrel_rep_inv h6
  refine ⟨c1 :: (c4 :: csd), ?_, ?_⟩
  · subst hs6 hs5 hs1
    simp
  · have hcnt := filter_digit_count_ge [c1] csd c4 (d69_digit hc4) hall
    simp only [List.cons_append, List.nil_append] at hcnt
    omega

/-- Every match of `\b[6-9]\d{9}\b` contains at least 10 digits. -/
theorem phone4_digits {rev s rev1 s1 : List Char} (h : MRel phonePat4 rev s rev1 s1) :
    ∃ cs, s = cs ++ s1 ∧ 10 ≤ (cs.filter Char.isDigit).length := by
  simp only [phonePat4, catList] at h
  obtain ⟨r2, s2, h1, h⟩ := mrel_seq_inv h
  obtain ⟨hs2, -⟩ := mrel_wb_inv h1
  obtain ⟨r3, s3, h3, h4⟩ := mrel_seq_inv h
  obtain ⟨c4, hc4, hs3, -⟩ := mrel_cls_inv h3
  obtain ⟨r4, s4, h5, h6⟩ := mrel_seq_inv h4
  obtain ⟨csd, hall, hlo, hs5⟩ := mrel_rep_inv h5
  obtain ⟨hs6, -⟩ := mrel_wb_inv h6
  refine ⟨c4 :: csd, ?_, ?_⟩
  · subst hs2 hs6 hs5 hs3
    rfl
  · have hcnt := filter_digit_count_ge [] csd c4 (d69_digit hc4) hall
    simp only [List.nil_append] at hcnt
    omega

theorem phone_patterns_digits :
    ∀ p ∈ PHONE_PATTERNS, ∀ {rev s rev1 s1 : List Char}, MRel p rev s rev1 s1 →
    ∃ cs, s = cs ++ s1 ∧ 10 ≤ (cs.filter Char.isDigit).length := by
  intro p hp
  simp only [PHONE_PATTERNS, List.mem_cons, List.not_mem_nil, or_false] at hp
  rcases hp with rfl | rfl | rfl | rfl
  · exact fun h => phone1_digits h
  · exact fun h => phone2_digits h
  · exact fun h => phone3_digits h
  · exact fun h => phone4_digits h

theorem extract_phone_numbers_persist (b t2 : List Char)
    (hw : wordOpt t2.head? = false) (h : extract_phone_numbers b ≠ []) :
    extract_phone_numbers (b ++ t2) ≠ [] := by
  unfold extract_phone_numbers at h ⊢
  rcases outer_foldl_ne_nil phoneStep (fun p => findAllL p b) PHONE_PATTERNS [] h with
    h2 | ⟨p, hp, hpne⟩
  · exact absurd rfl h2
  have hs : msearchB p [] b = true :=
    (findAllAux_ne_iff p b.length b [] le_rfl).mp hpne
  have hs2 : msearchB p [] (b ++ t2) = true := msearch_extend hs hw
  have hne2 : findAllAux p [] (b ++ t2) ≠ [] :=
    (findAllAux_ne_iff p (b ++ t2).length (b ++ t2) [] le_rfl).mpr hs2
  obtain ⟨m0, hm0⟩ := List.exists_mem_of_ne_nil _ hne2
  obtain ⟨rev0, rev1, sx, hrel⟩ :=
    findAllAux_elem p (b ++ t2).length (b ++ t2) [] le_rfl m0 hm0
  obtain ⟨cs, hcs, hcount⟩ := phone_patterns_digits p hp hrel
  have hm0cs : m0 = cs := List.append_cancel_right hcs
  subst hm0cs
  apply List.ne_nil_of_mem
  refine foldl_mem_add (fun a q => (findAllL q (b ++ t2)).foldl phoneStep a) _ p
    (fun a q hy => foldl_mem_preserve phoneStep _
      (fun a2 m2 hy2 => phoneStep_grow a2 m2 hy2) (findAllL q (b ++ t2)) a hy)
    (fun a => foldl_mem_add phoneStep _ m0
      (fun a2 m2 hy2 => phoneStep_grow a2 m2 hy2)
      (fun a2 => phoneStep_add a2 m0 (by rw [filter_clean_digits]; exact hcount))
      (findAllL p (b ++ t2)) a hm0)
    PHONE_PATTERNS [] hp

/-! ## Monotonicity of the scoring pass and the intelligence boost -/

theorem catHit_extend (cat : ScamCategory) (t1 t2 : List Char)
    (hw : wordOpt t2.head? = false) (h : catHit cat t1 = true) :
    catHit cat (t1 ++ t2) = true := by
  unfold catHit at h ⊢
  rw [List.any_eq_true] at h ⊢
  obtain ⟨p, hp, hs⟩ := h
  exact ⟨p, hp, msearch_extend hs hw⟩

theorem scamStep_fold_mono (t1 t2 : List Char)
    (himp : ∀ cat : ScamCategory, catHit cat t1 = true → catHit cat t2 = true) :
    ∀ (l : List ScamCategory), (∀ cat ∈ l, (0:ℚ) ≤ cat.weight) →
    ∀ (a1 a2 : ℚ × List String), a1.1 ≤ a2.1 →
    (l.foldl (scamStep t1) a1).1 ≤ (l.foldl (scamStep t2) a2).1 := by
  intro l
  induction l with
  | nil =>
    intro _ a1 a2 h
    simpa using h
  | cons cat l2 ih =>
    intro hw a1 a2 h
    simp only [List.foldl_cons]
    refine ih (fun c hc => hw c (by simp [hc])) _ _ ?_
    have hwc : (0:ℚ) ≤ cat.weight := hw cat (by simp)
    unfold scamStep
    by_cases h1 : catHit cat t1 = true
    · rw [if_pos h1, if_pos (himp cat h1)]
      exact add_le_add_right h _
    · rw [if_neg h1]
      by_cases h2 : catHit cat t2 = true
      · rw [if_pos h2]
        exact le_trans h (le_add_of_nonneg_right hwc)
      · rw [if_neg h2]
        exact h

unseal Rat.add Rat.mul Rat.inv Rat.sub in
theorem scam_weights_nonneg : ∀ cat ∈ SCAM_PATTERNS, (0:ℚ) ≤ cat.weight := by
  decide

unseal Rat.add Rat.mul Rat.inv Rat.sub in
theorem scam_max_score :
    SCAM_PATTERNS.foldl (fun a cat => a + cat.weight) (0:ℚ) = 24 := by
  decide

theorem boost_if_mono {w : ℚ} (hw : 0 ≤ w) {b1 b2 : Bool}
    (himp : b1 = false → b2 = false) :
    (if b1 then (0:ℚ) else w) ≤ (if b2 then (0:ℚ) else w) := by
  cases b1 with
  | false => rw [himp rfl]
  | true =>
    simp only [if_true]
    cases b2 <;> simp [hw]

theorem isEmpty_false_of_ne_nil {l : List String} (h : l ≠ []) : l.isEmpty = false := by
  cases l with
  | nil => exact absurd rfl h
  | cons a l2 => rfl

theorem ne_nil_of_isEmpty_false {l : List String} (h : l.isEmpty = false) : l ≠ [] := by
  cases l with
  | nil => simp at h
  | cons a l2 => simp

/-- With an empty history, `detect_scam`'s confidence is the capped base
confidence plus the intelligence boost (unfolding of the definition). -/
theorem detect_scam_nil_confidence (msg : String) :
    (detect_scam msg []).2.1 =
      min 1 (min ((SCAM_PATTERNS.foldl (scamStep (msg.toList.map Char.toLower))
          ((0:ℚ), ([]:List String))).1 /
        (SCAM_PATTERNS.foldl (fun a cat => a + cat.weight) (0:ℚ))) 1 +
        ((if (extract_all msg.toList).upiIds.isEmpty then 0 else 3/20) +
         (if (extract_all msg.toList).phoneNumbers.isEmpty then 0 else 1/10) +
         (if (extract_all msg.toList).phishingLinks.isEmpty then 0 else 1/5))) := rfl

unseal Rat.add Rat.mul Rat.inv Rat.sub in
/-- C7: counterexample to the claim as stated.  "act fast" is one of the
scam-tactic phrases (an `urgency` trigger), yet appending it directly to the
message "urgent" glues the words together ("urgentact fast"), the `\b`
word-boundary anchors of every trigger fail, and the confidence returned by
`detect_scam` strictly drops (from 1/12 to 0). -/
theorem C7_append_counterexample :
    wbWord "act fast" ∈ urgencyCat.patterns ∧
    (detect_scam ("urgent" ++ "act fast") []).2.1 < (detect_scam "urgent" []).2.1 := by
  constructor
  · simp [urgencyCat]
  · decide

/-- C7 (amended): with an empty history, appending a space followed by any
text to the message never decreases the confidence returned by
`detect_scam`: every word-boundary trigger hit and every extracted
intelligence indicator of the original message survives the extension. -/
theorem C7_amended (m t : String) :
    (detect_scam m []).2.1 ≤ (detect_scam (m ++ " " ++ t) []).2.1 := by
  rw [detect_scam_nil_confidence, detect_scam_nil_confidence, scam_max_score]
  have hsp : Char.toLower ' ' = ' ' := by decide
  have htext : (m ++ " " ++ t).toList = m.toList ++ ' ' :: t.toList := by
    simp
  have hlow : (m ++ " " ++ t).toList.map Char.toLower
      = (m.toList.map Char.toLower) ++ ' ' :: (t.toList.map Char.toLower) := by
    rw [htext]
    simp [hsp]
  rw [hlow, htext]
  refine min_le_min le_rfl (add_le_add ?_ ?_)
  · refine min_le_min ?_ le_rfl
    refine div_le_div_of_nonneg_right ?_ (by norm_num)
    exact scamStep_fold_mono (m.toList.map Char.toLower)
      ((m.toList.map Char.toLower) ++ ' ' :: (t.toList.map Char.toLower))
      (fun cat h => catHit_extend cat _ _ rfl h)
      SCAM_PATTERNS scam_weights_nonneg ((0:ℚ), ([]:List String))
      ((0:ℚ), ([]:List String)) le_rfl
  · refine add_le_add (add_le_add ?_ ?_) ?_
    · exact boost_if_mono (by norm_num)
        (fun hf => isEmpty_false_of_ne_nil
          (extract_upi_ids_persist m.toList t.toList (ne_nil_of_isEmpty_false hf)))
    · exact boost_if_mono (by norm_num)
        (fun hf => isEmpty_false_of_ne_nil
          (extract_phone_numbers_persist m.toList (' ' :: t.toList) rfl
            (ne_nil_of_isEmpty_false hf)))
    · exact boost_if_mono (by norm_num)
        (fun hf => isEmpty_false_of_ne_nil
          (extract_urls_persist m.toList t.toList (ne_nil_of_isEmpty_false hf)))

/-! ## Scanning a text around a standalone digit token -/

theorem take_length_append (a b : List Char) : (a ++ b).take a.length = a :=
  List.take_left a b

/-- When the preferred match at the current position consumes exactly `d`,
the scan reports `d` and continues after it. -/
theorem scan_hit_head (r : RE) (rev d suf : List Char) (hne : d ≠ [])
    (hhit : matchHere r rev (d ++ suf) = some (d.reverse ++ rev, suf)) :
    findAllAux r rev (d ++ suf) = d :: findAllAux r (d.reverse ++ rev) suf := by
  match d, hne with
  | c0 :: d0, _ =>
    rw [List.cons_append] at hhit ⊢
    rw [findAllAux_cons, hhit]
    have hlt : suf.length < (c0 :: (d0 ++ suf)).length := by
      simp only [List.length_cons, List.length_append]
      omega
    dsimp only
    rw [if_pos hlt]
    have hdiff : (c0 :: (d0 ++ suf)).length - suf.length = (c0 :: d0).length := by
      simp only [List.length_cons, List.length_append]
      omega
    rw [hdiff]
    have htake : (c0 :: (d0 ++ suf)).take (c0 :: d0).length = c0 :: d0 := by
      have hform : c0 :: (d0 ++ suf) = (c0 :: d0) ++ suf := rfl
      rw [hform]
      exact take_length_append (c0 :: d0) suf
    rw [htake]

/-- The scan reports the token `d` no matter what precedes it: every match of
the pattern consumes a nonempty all-digit run, so no match can cross the
non-word (hence non-digit) character standing right before `d`, and the scan
always arrives at `d`'s position with the boundary intact. -/
theorem scan_mem_token (r : RE)
    (hcons : ∀ {rev s rev1 s1 : List Char}, MRel r rev s rev1 s1 →
      ∃ cs, s = cs ++ s1 ∧ 1 ≤ cs.length ∧ ∀ c ∈ cs, c.isDigit = true)
    (d suf : List Char) (hne : d ≠ [])
    (hhit : ∀ rev, wordOpt rev.head? = false →
      matchHere r rev (d ++ suf) = some (d.reverse ++ rev, suf)) :
    ∀ (n : Nat) (pre rev : List Char), pre.length ≤ n →
    wordOpt (pre.reverse ++ rev).head? = false →
    d ∈ findAllAux r rev (pre ++ (d ++ suf)) := by
  intro n
  induction n with
  | zero =>
    intro pre rev hlen hw
    have hpre : pre = [] := by cases pre <;> simp_all
    subst hpre
    simp only [List.reverse_nil, List.nil_append] at hw ⊢
    rw [scan_hit_head r rev d suf hne (hhit rev hw)]
    simp
  | succ n ih =>
    intro pre rev hlen hw
    cases pre with
    | nil =>
      simp only [List.reverse_nil, List.nil_append] at hw ⊢
      rw [scan_hit_head r rev d suf hne (hhit rev hw)]
      simp
    | cons c p =>
      have hplen : p.length ≤ n := by
        simp only [List.length_cons] at hlen
        omega
      rw [List.cons_append, findAllAux_cons]
      cases hmm : matchHere r rev (c :: (p ++ (d ++ suf))) with
      | none =>
        show d ∈ findAllAux r (c :: rev) (p ++ (d ++ suf))
        refine ih p (c :: rev) hplen ?_
        have heq : p.reverse ++ (c :: rev) = (c :: p).reverse ++ rev := by
          simp
        rw [heq]
        exact hw
      | some pr =>
        obtain ⟨rev1, s2⟩ := pr
        obtain ⟨cl, crest, hcl, hclmem⟩ :=
          reverse_head_nonempty (show (c :: p) ≠ [] by simp)
        have hclw : isWordChar cl = false := by
          have hw2 := hw
          rw [hcl] at hw2
          simpa [wordOpt] using hw2
        have hcld : cl.isDigit = false := nonword_not_digit hclw
        obtain ⟨cs, hcs, hone, hdig⟩ := hcons (matchHere_some hmm)
        obtain ⟨cs2, hcs2, hrev2⟩ := matchHere_suffix hmm
        have hcse : cs = cs2 := List.append_cancel_right (hcs.symm.trans hcs2)
        rw [← hcse] at hrev2
        have hsplit : (c :: p) ++ (d ++ suf) = cs ++ s2 := by
          simpa using hcs
        rcases List.append_eq_append_iff.mp hsplit with ⟨e, he1, -⟩ | ⟨e, he1, he2⟩
        · exfalso
          have hclcs : cl ∈ cs := by
            rw [he1]
            exact List.mem_append_left _ hclmem
          rw [hdig cl hclcs] at hcld
          exact absurd hcld (by simp)
        · subst he2
          have hl1 : (c :: p).length = cs.length + e.length := by
            rw [he1]
            simp
          simp only [List.length_cons] at hl1
          have hlt : (e ++ (d ++ suf)).length < (c :: (p ++ (d ++ suf))).length := by
            simp only [List.length_cons, List.length_append]
            omega
          dsimp only
          rw [if_pos hlt]
          refine List.mem_cons_of_mem _ ?_
          refine ih e rev1 (by omega) ?_
          rw [hrev2]
          have heq : e.reverse ++ (cs.reverse ++ rev) = (c :: p).reverse ++ rev := by
            rw [he1]
            simp [List.reverse_append, List.append_assoc]
          rw [heq]
          exact hw

/-- A standalone 10-digit token is reported verbatim by
`extract_bank_accounts`. -/
theorem bank_account_mem (pre d suf : List Char) (hlen : d.length = 10)
    (hdig : ∀ c ∈ d, c.isDigit = true)
    (hlast : wordOpt pre.getLast? = false)
    (hsuf : wordOpt suf.head? = false) :
    String.mk d ∈ extract_bank_accounts (pre ++ (d ++ suf)) := by
  have hne : d ≠ [] := by
    intro hnil
    rw [hnil] at hlen
    simp at hlen
  have hrevw : wordOpt (pre.reverse ++ ([] : List Char)).head? = false := by
    rw [List.append_nil, List.head?_reverse]
    exact hlast
  have hmem : d ∈ findAllL bankAccountPat (pre ++ (d ++ suf)) :=
    scan_mem_token bankAccountPat (fun h => bank_consumed h) d suf hne
      (fun rev hrev => bank_hit d suf rev hlen hdig hne hsuf hrev)
      pre.length pre [] le_rfl hrevw
  unfold extract_bank_accounts
  dsimp only
  refine foldl_mem_preserve ifscStep (String.mk d)
    (fun a m hy => ifscStep_grow a m hy) _ _ ?_
  exact foldl_mem_add bankStep (String.mk d) d
    (fun a m hy => bankStep_grow a m hy)
    (fun a => bankStep_add a d (by omega) (by omega))
    _ [] hmem

/-- A standalone 10-digit token starting 6–9 is reported by
`extract_phone_numbers` in canonical `+91` form. -/
theorem phone_number_mem (pre d suf : List Char) (hlen : d.length = 10)
    (hdig : ∀ c ∈ d, c.isDigit = true)
    (h69 : ∃ c0 d0, d = c0 :: d0 ∧ d69Char c0 = true)
    (hlast : wordOpt pre.getLast? = false)
    (hsuf : wordOpt suf.head? = false) :
    ("+91" ++ String.mk d) ∈ extract_phone_numbers (pre ++ (d ++ suf)) := by
  have hne : d ≠ [] := by
    intro hnil
    rw [hnil] at hlen
    simp at hlen
  have hrevw : wordOpt (pre.reverse ++ ([] : List Char)).head? = false := by
    rw [List.append_nil, List.head?_reverse]
    exact hlast
  have hmem : d ∈ findAllL phonePat4 (pre ++ (d ++ suf)) :=
    scan_mem_token phonePat4 (fun h => phone4_consumed h) d suf hne
      (fun rev hrev => phone4_hit d suf rev hlen hdig h69 hsuf hrev)
      pre.length pre [] le_rfl hrevw
  have hdg : (d.filter (fun c => !sepChar c)).filter Char.isDigit = d := by
    rw [filter_clean_digits]
    exact List.filter_eq_self.mpr hdig
  have h10 : 10 ≤ ((d.filter (fun c => !sepChar c)).filter Char.isDigit).length := by
    rw [hdg, hlen]
  unfold extract_phone_numbers
  refine foldl_mem_add (fun a q => (findAllL q (pre ++ (d ++ suf))).foldl phoneStep a)
    ("+91" ++ String.mk d) phonePat4
    (fun a q hy => foldl_mem_preserve phoneStep _
      (fun a2 m2 hy2 => phoneStep_grow a2 m2 hy2) _ a hy)
    (fun a => foldl_mem_add phoneStep _ d
      (fun a2 m2 hy2 => phoneStep_grow a2 m2 hy2)
      (fun a2 => ?_) _ a hmem)
    PHONE_PATTERNS [] (by simp [PHONE_PATTERNS])
  have hx := phoneStep_add a2 d h10
  rw [hdg, hlen] at hx
  simpa using hx

/-- C10: whatever the surrounding text, a bare 10-digit number starting 6–9
standing as its own token (the character before it, if any, is a non-word
character, as is the character after it) is returned by `extract_all` both
verbatim among the bank accounts and in canonical `+91` form among the phone
numbers — the 9-to-18-digit account net includes every 10-digit phone
number — and merging that intelligence into any session makes
`has_good_intel` true. -/
theorem C10_standalone_number (pre d suf : List Char) (s : SessionState)
    (hlen : d.length = 10)
    (hdig : ∀ c ∈ d, c.isDigit = true)
    (h69 : ∃ c0 d0, d = c0 :: d0 ∧ d69Char c0 = true)
    (hlast : wordOpt pre.getLast? = false)
    (hsuf : wordOpt suf.head? = false) :
    String.mk d ∈ (extract_all (pre ++ (d ++ suf))).bankAccounts ∧
    ("+91" ++ String.mk d) ∈ (extract_all (pre ++ (d ++ suf))).phoneNumbers ∧
    SessionState.has_good_intel
      { s with intelligence :=
          s.intelligence.merge (extract_all (pre ++ (d ++ suf))) } = true := by
  have hbank := bank_account_mem pre d suf hlen hdig hlast hsuf
  have hphone := phone_number_mem pre d suf hlen hdig h69 hlast hsuf
  refine ⟨hbank, hphone, ?_⟩
  have hmm : String.mk d ∈ mergeField s.intelligence.bankAccounts
      (extract_all (pre ++ (d ++ suf))).bankAccounts :=
    foldl_mem_add (fun c v => if c.contains v then c else c ++ [v])
      (String.mk d) (String.mk d)
      (fun acc m h => dedup_append_mem_of_mem acc m h)
      (fun acc => dedup_append_mem_self acc _)
      _ _ hbank
  have hpos : 0 < (mergeField s.intelligence.bankAccounts
      (extract_all (pre ++ (d ++ suf))).bankAccounts).length :=
    List.length_pos.mpr (List.ne_nil_of_mem hmm)
  unfold SessionState.has_good_intel ExtractedIntelligence.merge
  dsimp only
  simp [hpos]

/-- C10 at the concrete text `"account 12345678901 or call 9876543210"`
(the prefix itself contains another digit run) and a fresh session. -/
theorem C10_standalone_number_witness :
    (("9876543210".toList).length = 10 ∧
     (∀ c ∈ "9876543210".toList, c.isDigit = true) ∧
     (∃ c0 d0, "9876543210".toList = c0 :: d0 ∧ d69Char c0 = true) ∧
     wordOpt ("account 12345678901 or call ".toList).getLast? = false ∧
     wordOpt (([] : List Char)).head? = false) ∧
    (String.mk ("9876543210".toList)
        ∈ (extract_all ("account 12345678901 or call ".toList ++
            ("9876543210".toList ++ []))).bankAccounts ∧
     ("+91" ++ String.mk ("9876543210".toList))
        ∈ (extract_all ("account 12345678901 or call ".toList ++
            ("9876543210".toList ++ []))).phoneNumbers ∧
     SessionState.has_good_intel
       { intelligence := ExtractedIntelligence.merge {}
           (extract_all ("account 12345678901 or call ".toList ++
             ("9876543210".toList ++ []))) } = true) := by
  refine ⟨⟨by decide, by decide, ⟨'9', "876543210".toList, rfl, by decide⟩,
    by decide, by decide⟩, ?_⟩
  exact C10_standalone_number "account 12345678901 or call ".toList
    "9876543210".toList [] {}
    (by decide) (by decide) ⟨'9', "876543210".toList, rfl, by decide⟩
    (by decide) (by decide)
